import Mathlib

/-!
# Zerberus voice pool and engine state, WorkspaceFile root entry

Shallow embedding of `zerberus/zerberus.h` (classes `VoiceFifo` and `Zerberus`)
and of `src/framework/workspace/internal/workspacefile.cpp`.
-/

namespace MuseScore

/-- Source: `static const int MAX_VOICES = 512;` -/
def MAX_VOICES : Int := 512

/-- Source: `static const int MAX_CHANNEL = 64;` -/
def MAX_CHANNEL : Int := 64

/-- Source: `static const int MAX_TRIGGER = 512;` -/
def MAX_TRIGGER : Int := 512

/-- Smallest value of a 32-bit `int`. -/
def INT_MIN : Int := -2147483648

/-- Largest value of a 32-bit `int`. -/
def INT_MAX : Int := 2147483647

/-- Arithmetic of `std::atomic<int>`: the mathematical result is reduced to the
32-bit two's complement range (atomic increments and decrements wrap, they have
no undefined results). -/
def wrapInt32 (x : Int) : Int := (x + 2147483648) % 4294967296 - 2147483648

/-- Result of running a member function: it returns (`ok`, with the new object
state and the returned value), the process is terminated by `abort()`
(`aborted`, with the object state at that moment), or an array is accessed
outside its bounds (`outOfBounds`, undefined behaviour). -/
inductive Outcome (σ : Type) (ρ : Type) : Type where
  | ok (s : σ) (r : ρ) : Outcome σ ρ
  | aborted (s : σ) : Outcome σ ρ
  | outOfBounds : Outcome σ ρ

/-- Source: `class VoiceFifo`. `V` stands for `Voice*`. The array
`Voice* buffer[MAX_VOICES]` is a map from the C index to the slot content; only
indices in `[0, MAX_VOICES)` are legal, which `push` and `pop` check. -/
structure VoiceFifo (V : Type) where
  buffer : Int → V
  n : Int
  writeIdx : Int
  readIdx : Int

namespace VoiceFifo

variable {V : Type}

/-- Source: constructor `VoiceFifo() { n = 0; }` with the member initialisers
`writeIdx = 0`, `readIdx = 0`. The array is not initialised by the constructor:
its content `garbage` is arbitrary. -/
def construct (garbage : Int → V) : VoiceFifo V :=
  { buffer := garbage, n := 0, writeIdx := 0, readIdx := 0 }

/-- Source: `void push(Voice* v)`:
`buffer[writeIdx++] = v; writeIdx %= MAX_VOICES; ++n;` -/
def push (f : VoiceFifo V) (v : V) : Outcome (VoiceFifo V) Unit :=
  if 0 ≤ f.writeIdx ∧ f.writeIdx < MAX_VOICES then
    .ok { buffer := Function.update f.buffer f.writeIdx v
          writeIdx := Int.tmod (f.writeIdx + 1) MAX_VOICES
          n := wrapInt32 (f.n + 1)
          readIdx := f.readIdx } ()
  else
    .outOfBounds

/-- Source: `Voice* pop()`:
`if (n == 0) abort(); --n; Voice* v = buffer[readIdx++]; readIdx %= MAX_VOICES; return v;` -/
def pop (f : VoiceFifo V) : Outcome (VoiceFifo V) V :=
  if f.n = 0 then
    .aborted f
  else if 0 ≤ f.readIdx ∧ f.readIdx < MAX_VOICES then
    .ok { buffer := f.buffer
          n := wrapInt32 (f.n - 1)
          readIdx := Int.tmod (f.readIdx + 1) MAX_VOICES
          writeIdx := f.writeIdx } (f.buffer f.readIdx)
  else
    .outOfBounds

/-- Source: `bool empty() const { return n == 0; }` -/
def empty (f : VoiceFifo V) : Bool := decide (f.n = 0)

end VoiceFifo

/-- One call on a `VoiceFifo`: `push(v)` (release a voice) or `pop()` (acquire one). -/
inductive Op (V : Type) : Type where
  | push (v : V) : Op V
  | pop : Op V

variable {V : Type}

/-- Effect of one call on a running program: the call is made only if the
program is still running; the voices returned by `pop` are collected in order. -/
def exec (o : Outcome (VoiceFifo V) (List V)) (op : Op V) : Outcome (VoiceFifo V) (List V) :=
  match o with
  | .ok f outs =>
    match op with
    | .push v =>
      match f.push v with
      | .ok f1 _ => .ok f1 outs
      | .aborted s => .aborted s
      | .outOfBounds => .outOfBounds
    | .pop =>
      match f.pop with
      | .ok f1 v => .ok f1 (outs ++ [v])
      | .aborted s => .aborted s
      | .outOfBounds => .outOfBounds
  | .aborted s => .aborted s
  | .outOfBounds => .outOfBounds

/-- Runs a sequence of calls, in order, on the fifo `f`. -/
def run (f : VoiceFifo V) (ops : List (Op V)) : Outcome (VoiceFifo V) (List V) :=
  ops.foldl exec (.ok f [])

/-- Both indices address a slot of `buffer[MAX_VOICES]`. -/
def IndexSafe (f : VoiceFifo V) : Prop :=
  (0 ≤ f.readIdx ∧ f.readIdx < MAX_VOICES) ∧ (0 ≤ f.writeIdx ∧ f.writeIdx < MAX_VOICES)

/-- Ring invariant: both indices are in range, the write index is the read
index advanced by the count modulo the array size, and the count is a 32-bit
`int`. -/
def Ring (f : VoiceFifo V) : Prop :=
  IndexSafe f ∧ f.writeIdx = (f.readIdx + f.n) % MAX_VOICES ∧
    (INT_MIN ≤ f.n ∧ f.n ≤ INT_MAX)

/-- The property `P` holds of the fifo of a program that did not leave the
bounds of an array: of its current state if it runs, of its last state if it
was aborted. -/
def Outcome.Holds {ρ : Type} (P : VoiceFifo V → Prop) : Outcome (VoiceFifo V) ρ → Prop
  | .ok f _ => P f
  | .aborted f => P f
  | .outOfBounds => False

/-- Number of `push` calls in a sequence of calls. -/
def pushCount : List (Op V) → Nat
  | [] => 0
  | .push _ :: rest => pushCount rest + 1
  | .pop :: rest => pushCount rest

/-- Count bound: the ring invariant holds and the count is between zero and `k`. -/
def CountWithin (k : Nat) (f : VoiceFifo V) : Prop :=
  Ring f ∧ 0 ≤ f.n ∧ f.n ≤ k

/-- Change of the number of active voices by one call: `pop` acquires a voice,
`push` releases one. -/
def activeDelta : Op V → Int
  | .push _ => -1
  | .pop => 1

/-- Active count after a sequence of calls on a full free set: the number of
pops minus the number of pushes. -/
def active : List (Op V) → Int
  | [] => 0
  | op :: rest => activeDelta op + active rest

/-- The active count, `a` before the calls, stays between 0 and `MAX_VOICES`
after every call of the sequence. -/
def WithinCapacity (a : Int) : List (Op V) → Prop
  | [] => True
  | op :: rest =>
    (0 ≤ a + activeDelta op ∧ a + activeDelta op ≤ MAX_VOICES) ∧
      WithinCapacity (a + activeDelta op) rest

/-- With `k` entries stored before the calls, no call of the sequence stores
more than `MAX_VOICES` entries and `pop` is never called with no entry stored. -/
def Legal (k : Nat) : List (Op V) → Prop
  | [] => True
  | .push _ :: rest => k + 1 ≤ 512 ∧ Legal (k + 1) rest
  | .pop :: rest => 0 < k ∧ Legal (k - 1) rest

/-- The voices pushed by a sequence of calls, in order. -/
def pushed : List (Op V) → List V
  | [] => []
  | .push v :: rest => v :: pushed rest
  | .pop :: rest => pushed rest

/-- Abstract queue, the specification side of the refinement: `push` appends at
the back, `pop` removes from the front and is undefined on the empty queue. The
state is the queue together with the voices returned so far. -/
def queueExec (s : Option (List V × List V)) (op : Op V) : Option (List V × List V) :=
  match s with
  | none => none
  | some (q, outs) =>
    match op with
    | .push v => some (q ++ [v], outs)
    | .pop =>
      match q with
      | [] => none
      | x :: q1 => some (q1, outs ++ [x])

/-- Runs a sequence of calls on the abstract queue, starting empty. -/
def queueRun (ops : List (Op V)) : Option (List V × List V) :=
  ops.foldl queueExec (some ([], []))

/-- Simulation relation of the refinement: the ring holds exactly the entries
of the abstract queue `q`, oldest first, from the read index on. -/
def Represents (f : VoiceFifo V) (q : List V) : Prop :=
  Ring f ∧ f.n = q.length ∧ q.length ≤ 512 ∧
    ∀ i : Nat, i < q.length → q[i]? = some (f.buffer ((f.readIdx + i) % 512))

/-- A fifo holding `MAX_VOICES` entries: the state reached by 512 pushes on a
freshly constructed fifo. -/
def fullFifo : VoiceFifo Nat :=
  match run (VoiceFifo.construct (fun _ => (0 : Nat)))
      ((List.replicate 512 (7 : Nat)).map Op.push) with
  | .ok f _ => f
  | _ => VoiceFifo.construct (fun _ => 0)

/-! ## The type `double` -/

/-- A value of the C type `double` (IEEE 754 binary64): NaN, an infinity with
its sign, or a finite value `q`. The finite values of the type are the `q` with
`roundFinite q = q` below `2^1024` in magnitude; the operations return only
such values. The sign of a zero is not represented: the comparisons, `pow(2.0, y)`
and `*` do not depend on it. -/
inductive Double : Type where
  | nan : Double
  | inf (negative : Bool) : Double
  | finite (q : ℚ) : Double

/-- Rounding to the nearest integer, ties to the even one. -/
def roundHalfEven (x : ℚ) : ℤ :=
  if x - ⌊x⌋ < 1 / 2 then ⌊x⌋
  else if 1 / 2 < x - ⌊x⌋ then ⌊x⌋ + 1
  else if ⌊x⌋ % 2 = 0 then ⌊x⌋ else ⌊x⌋ + 1

/-- Exponent of the binade of `a`: `e` with `2^e ≤ a < 2^(e+1)`, and `-1022`
(the subnormal range) for a smaller `a`. -/
def binade (a : ℚ) : ℤ := max (Int.log 2 a) (-1022)

/-- Distance between consecutive `double` values in the binade of `a`: 53
significant bits. -/
def ulp (a : ℚ) : ℚ := (2 : ℚ) ^ (binade a - 52)

/-- Rounding of a magnitude `a ≥ 0` to the nearest multiple of `ulp a`, ties
to the even significand. -/
def roundMag (a : ℚ) : ℚ := (roundHalfEven (a / ulp a) : ℚ) * ulp a

/-- IEEE 754 rounding to nearest, ties to even, with unbounded exponent. -/
def roundFinite (q : ℚ) : ℚ := if q < 0 then -roundMag (-q) else roundMag q

/-- The `double` an exact result `q` is rounded to: an infinity on overflow. -/
def roundToDouble (q : ℚ) : Double :=
  if roundFinite q ≤ -(2 : ℚ) ^ (1024 : ℕ) then .inf true
  else if (2 : ℚ) ^ (1024 : ℕ) ≤ roundFinite q then .inf false
  else .finite (roundFinite q)

/-- The smallest positive `double`, `2^-1074` (about `4.94e-324`). -/
def minPositive : ℚ := 1 / 2 ^ 1074

namespace Double

/-- The operator `<=` on `double`: false when an operand is NaN. -/
def le : Double → Double → Bool
  | .nan, _ => false
  | _, .nan => false
  | .inf true, _ => true
  | .inf false, .inf s => !s
  | .inf false, .finite _ => false
  | .finite _, .inf s => !s
  | .finite a, .finite b => decide (a ≤ b)

/-- The operator `<` on `double`: false when an operand is NaN. -/
def lt : Double → Double → Bool
  | .nan, _ => false
  | _, .nan => false
  | .inf false, _ => false
  | .inf true, .inf s => !s
  | .inf true, .finite _ => true
  | .finite _, .inf s => !s
  | .finite a, .finite b => decide (a < b)

/-- The operator `==` on `double`: false when an operand is NaN. -/
def eq : Double → Double → Bool
  | .nan, _ => false
  | _, .nan => false
  | .inf s, .inf s1 => s == s1
  | .inf _, .finite _ => false
  | .finite _, .inf _ => false
  | .finite a, .finite b => decide (a = b)

/-- The operator `-` on `double`. -/
def sub : Double → Double → Double
  | .nan, _ => .nan
  | _, .nan => .nan
  | .inf s, .inf s1 => if s = s1 then .nan else .inf s
  | .inf s, .finite _ => .inf s
  | .finite _, .inf s => .inf (!s)
  | .finite a, .finite b => roundToDouble (a - b)

/-- The operator `*` on `double`. -/
def mul : Double → Double → Double
  | .nan, _ => .nan
  | _, .nan => .nan
  | .inf s, .inf s1 => .inf (xor s s1)
  | .inf s, .finite b => if b = 0 then .nan else .inf (xor s (decide (b < 0)))
  | .finite a, .inf s => if a = 0 then .nan else .inf (xor s (decide (a < 0)))
  | .finite a, .finite b => roundToDouble (a * b)

/-- The operator `/` on `double`. A zero divisor is taken as `+0.0`, the sign
of a zero not being represented (`ct2hz` divides by `1200.0` only). -/
def div : Double → Double → Double
  | .nan, _ => .nan
  | _, .nan => .nan
  | .inf _, .inf _ => .nan
  | .inf s, .finite b => .inf (xor s (decide (b < 0)))
  | .finite _, .inf _ => .finite 0
  | .finite a, .finite b =>
    if b = 0 then (if a = 0 then .nan else .inf (decide (a < 0)))
    else roundToDouble (a / b)

end Double

/-- The C library that `zerberus.h` includes as `<math.h>`: `pow` is not part
of the repository and the C standard does not fix its rounding, so what it
answers is a parameter. -/
structure Libm where
  /-- Answer of `pow(x, y)`. -/
  pow : Double → Double → Double

/-- The library function `pow(2.0, ·)` never decreases: on exponents `y1 <= y2`
(so neither is NaN) it answers values with `pow(2.0, y1) <= pow(2.0, y2)`. -/
def Libm.PowMonotone (M : Libm) : Prop :=
  ∀ y1 y2 : Double, y1.le y2 = true →
    (M.pow (.finite 2) y1).le (M.pow (.finite 2) y2) = true

/-- A library used as a concrete input: its `pow(b, y)` is `b` to the integer
part of `y`, rounded, exact at the integer exponents. -/
def sampleLibm : Libm where
  pow := fun x y => match x, y with
    | .finite b, .finite q => roundToDouble (b ^ ⌊q⌋)
    | .finite _, .inf false => .inf false
    | .finite _, .inf true => .finite 0
    | _, _ => .nan

/-! ## Zerberus -/

/-- Source: `class Zerberus`, the members the claims read: `double _masterTuning`,
`Channel* _channel[MAX_CHANNEL]` (a map from the C index to the slot content,
of which only `[0, MAX_CHANNEL)` exists) and `int _loadProgress`. `Channel`
stands for `Channel*`. -/
structure Zerberus (Channel : Type) where
  _masterTuning : Double
  _channel : Int → Channel
  _loadProgress : Int

namespace Zerberus

variable {Channel : Type}

/-- Source: the default member initialisers `double _masterTuning = 440.0` and
`int _loadProgress = 0`; the array `_channel` has no initialiser, its content
`slots` is arbitrary. -/
def fresh (slots : Int → Channel) : Zerberus Channel :=
  { _masterTuning := .finite 440, _channel := slots, _loadProgress := 0 }

/-- Source: `void setLoadProgress(int val) { _loadProgress = val; }` -/
def setLoadProgress (z : Zerberus Channel) (val : Int) : Zerberus Channel :=
  { z with _loadProgress := val }

/-- Source: `int loadProgress() { return _loadProgress; }` -/
def loadProgress (z : Zerberus Channel) : Int := z._loadProgress

/-- Source: `Channel* channel(int n) { return _channel[n]; }`. The function has
no check of `n`: an index outside `[0, MAX_CHANNEL)` reads outside the array. -/
def channel (z : Zerberus Channel) (n : Int) : Outcome (Zerberus Channel) Channel :=
  if 0 ≤ n ∧ n < MAX_CHANNEL then .ok z (z._channel n) else .outOfBounds

/-- Source: `virtual void setMasterTuning(double val) { _masterTuning = val; }` -/
def setMasterTuning (z : Zerberus Channel) (val : Double) : Zerberus Channel :=
  { z with _masterTuning := val }

/-- Source: `virtual double masterTuning() const { return _masterTuning; }` -/
def masterTuning (z : Zerberus Channel) : Double := z._masterTuning

/-- Source: `double ct2hz(double c) { return pow(2.0, (c-6900.0) / 1200.0) * _masterTuning; }`
in `double` arithmetic: each of `-`, `/` and `*` rounds its exact result. -/
def ct2hz (M : Libm) (z : Zerberus Channel) (c : Double) : Double :=
  (M.pow (.finite 2) ((c.sub (.finite 6900)).div (.finite 1200))).mul z._masterTuning

end Zerberus

/-! ## WorkspaceFile -/

namespace WorkspaceFile

/-- A call on the `XmlWriter` of `global/xmlwriter.h`, with its arguments. -/
inductive XmlCall : Type where
  | writeStartDocument : XmlCall
  | writeStartElement (name : String) : XmlCall
  | writeAttribute (name : String) (value : String) : XmlCall
  | writeEndElement : XmlCall
  | writeEndDocument : XmlCall

/-- The collaborators of `workspacefile.cpp` that are not part of it: the byte
array type `QByteArray`, `XmlWriter` and `XmlReader` (`global/`), `MQZipWriter`
and `MQZipReader` (`thirdparty/qzip`) and the `QFile` at `m_filepath`. Each
member is what the collaborator answers; nothing is assumed about them here.
`std::string` and `QString` are both `String`. -/
structure Collaborators where
  /-- The type `QByteArray`. -/
  QByteArray : Type
  /-- Answer of `QByteArray::isEmpty()`. -/
  isEmpty : QByteArray → Bool
  /-- The value `QByteArray()`. -/
  emptyArray : QByteArray
  /-- Answer of `QByteArray::size()`, the number of bytes. -/
  size : QByteArray → Int
  /-- Content of the buffer of an `XmlWriter` after the given calls. -/
  xmlWritten : List XmlCall → QByteArray
  /-- State of an `XmlReader`. -/
  XmlReader : Type
  /-- State after `XmlReader xml(data)`. -/
  xmlReader : QByteArray → XmlReader
  /-- Answer of `readNextStartElement()` and the state after it. -/
  readNextStartElement : XmlReader → Bool × XmlReader
  /-- State after `skipCurrentElement()`. -/
  skipCurrentElement : XmlReader → XmlReader
  /-- Answer of `tagName()`. -/
  tagName : XmlReader → String
  /-- Answer of `attribute(name)` (the word is reserved in Lean). -/
  attributeValue : XmlReader → String → String
  /-- Content of the buffer of an `MQZipWriter` after `addFile` was called
  with the given names and data, in that order, the writer not being closed
  (`writeRootFile` writes the buffer to the file without calling `close()`). -/
  zipWritten : List (String × QByteArray) → QByteArray
  /-- Whether `status()` is `MQZipWriter::NoError` after these `addFile` calls. -/
  zipNoError : List (String × QByteArray) → Bool
  /-- Answer of `fileData(name)` of an `MQZipReader` on the given bytes. -/
  fileData : QByteArray → String → QByteArray
  /-- The `filePath` of each entry of `fileInfoList()` of an `MQZipReader` on
  the given bytes. -/
  fileInfoList : QByteArray → List String
  /-- State of the file at `m_filepath`. -/
  QFile : Type
  /-- Answer of `readAll()` after `open(QIODevice::ReadOnly)`, or `none` when
  the open fails. -/
  openReadAll : QFile → Option QByteArray
  /-- State of the file after `open(QIODevice::WriteOnly)`, or `none` when the
  open fails. -/
  openWriteOnly : QFile → Option QFile
  /-- Answer of `write(data)`, the number of bytes written or `-1` for an
  error, and the state of the file after it. -/
  write : QFile → QByteArray → Int × QFile

/-- Source: `class WorkspaceFile::MetaInf`, member `std::string m_rootfile`. -/
structure MetaInf where
  m_rootfile : String

/-- Name of the manifest entry, the literal `"META-INF/container.xml"`. -/
def containerPath : String := "META-INF/container.xml"

namespace MetaInf

/-- Source: `void MetaInf::setRootfile(const std::string& name) { m_rootfile = name; }` -/
def setRootfile (_m : MetaInf) (name : String) : MetaInf := { m_rootfile := name }

/-- Source: `std::string MetaInf::rootfile() const { return m_rootfile; }` -/
def rootfile (m : MetaInf) : String := m.m_rootfile

/-- Source: `MetaInf::writeContainer`, the calls made on the `XmlWriter`. -/
def containerCalls (m : MetaInf) : List XmlCall :=
  [ .writeStartDocument,
    .writeStartElement "container",
    .writeStartElement "rootfiles",
    .writeStartElement "rootfile",
    .writeAttribute "full-path" m.m_rootfile,
    .writeEndElement,
    .writeEndElement,
    .writeEndElement,
    .writeEndDocument ]

/-- Source: `void MetaInf::writeContainer(QByteArray* data) const`; the result
is the content of `*data` (the pointer is never null at the only call). -/
def writeContainer (L : Collaborators) (m : MetaInf) : L.QByteArray :=
  L.xmlWritten m.containerCalls

/-- Source: `void MetaInf::write(MQZipWriter& zip)`:
`zip.addFile("META-INF/container.xml", data)`; the archive is the list of the
`addFile` calls made so far. -/
def write (L : Collaborators) (m : MetaInf) (zip : List (String × L.QByteArray)) :
    List (String × L.QByteArray) :=
  zip ++ [(containerPath, m.writeContainer L)]

/-- Source: the innermost loop of `MetaInf::readContainer`. `none` means the
fuel ran out; otherwise the value assigned to `m_rootfile` on `return`, if any,
and the reader state. -/
def readRootfilesLoop (L : Collaborators) :
    Nat → L.XmlReader → Option (Option String × L.XmlReader)
  | 0, _ => none
  | fuel + 1, xml =>
    let step := L.readNextStartElement xml
    if step.1 = false then some (none, step.2)
    else if "rootfile" ≠ L.tagName step.2 then
      readRootfilesLoop L fuel (L.skipCurrentElement step.2)
    else some (some (L.attributeValue step.2 "full-path"), step.2)

/-- Source: the middle loop of `MetaInf::readContainer`. -/
def readContainerLoop (L : Collaborators) :
    Nat → L.XmlReader → Option (Option String × L.XmlReader)
  | 0, _ => none
  | fuel + 1, xml =>
    let step := L.readNextStartElement xml
    if step.1 = false then some (none, step.2)
    else if "rootfiles" ≠ L.tagName step.2 then
      readContainerLoop L fuel (L.skipCurrentElement step.2)
    else
      match readRootfilesLoop L fuel step.2 with
      | none => none
      | some (some found, xml1) => some (some found, xml1)
      | some (none, xml1) => readContainerLoop L fuel xml1

/-- Source: the outer loop of `MetaInf::readContainer`. -/
def readDocumentLoop (L : Collaborators) :
    Nat → L.XmlReader → Option (Option String × L.XmlReader)
  | 0, _ => none
  | fuel + 1, xml =>
    let step := L.readNextStartElement xml
    if step.1 = false then some (none, step.2)
    else if "container" ≠ L.tagName step.2 then
      readDocumentLoop L fuel (L.skipCurrentElement step.2)
    else
      match readContainerLoop L fuel step.2 with
      | none => none
      | some (some found, xml1) => some (some found, xml1)
      | some (none, xml1) => readDocumentLoop L fuel xml1

/-- Source: `void MetaInf::readContainer(const QByteArray& data)`; `none` means
the fuel ran out. -/
def readContainer (L : Collaborators) (fuel : Nat) (m : MetaInf) (data : L.QByteArray) :
    Option MetaInf :=
  match readDocumentLoop L fuel (L.xmlReader data) with
  | none => none
  | some (some found, _) => some { m_rootfile := found }
  | some (none, _) => some m

/-- Source: `bool MetaInf::read(const MQZipReader& zip)`; `zip` is the byte
array the reader was opened on. -/
def read (L : Collaborators) (fuel : Nat) (m : MetaInf) (zip : L.QByteArray) :
    Option (Bool × MetaInf) :=
  let container := L.fileData zip containerPath
  if L.isEmpty container then some (false, m)
  else
    match readContainer L fuel m container with
    | none => none
    | some m1 => if m1.m_rootfile = "" then some (false, m1) else some (true, m1)

end MetaInf

/-- Source: `QByteArray WorkspaceFile::readRootFile()`; `f` is the file at
`m_filepath` and `none` means the fuel ran out. -/
def readRootFile (L : Collaborators) (fuel : Nat) (f : L.QFile) : Option L.QByteArray :=
  match L.openReadAll f with
  | none => some L.emptyArray
  | some data =>
    match MetaInf.read L fuel { m_rootfile := "" } data with
    | none => none
    | some (found, meta) =>
      let rootfile :=
        if found then meta.rootfile
        else
          match L.fileInfoList data with
          | [] => ""
          | first :: _ => first
      if rootfile = "" then some L.emptyArray
      else
        let fileData := L.fileData data rootfile
        if L.isEmpty fileData then some L.emptyArray else some fileData

/-- Source: `bool WorkspaceFile::writeRootFile(const std::string& name, const QByteArray& file)`;
the result is the returned value and the state of the file at `m_filepath`. -/
def writeRootFile (L : Collaborators) (name : String) (file : L.QByteArray) (f : L.QFile) :
    Bool × L.QFile :=
  let meta := ({ m_rootfile := "" } : MetaInf).setRootfile name
  let zip := meta.write L [(name, file)]
  if L.zipNoError zip = false then (false, f)
  else
    match L.openWriteOnly f with
    | none => (false, f)
    | some f1 =>
      let written := L.write f1 (L.zipWritten zip)
      if written.1 = 0 then (false, written.2) else (true, written.2)

/-- The archive `writeRootFile(name, file)` hands to `QFile::write`: the content
of the buffer of the writer after the two `addFile` calls. -/
def archiveWritten (L : Collaborators) (name : String) (file : L.QByteArray) : L.QByteArray :=
  L.zipWritten (MetaInf.write L { m_rootfile := name } [(name, file)])

/-- Byte arrays of the sample collaborators. -/
inductive SampleBytes : Type where
  | raw (bytes : List Nat) : SampleBytes
  | xml (calls : List XmlCall) : SampleBytes
  | zip (entries : List (String × SampleBytes)) : SampleBytes

/-- Size of a byte array of the sample collaborators: the number of bytes, of
calls or of entries. -/
def SampleBytes.size : SampleBytes → Int
  | .raw bytes => bytes.length
  | .xml calls => calls.length
  | .zip entries => entries.length

/-- File of the sample collaborators: its content, if it exists, and whether
the device is full, in which case `write` fails with `-1`. -/
structure SampleFile where
  content : Option SampleBytes
  deviceFull : Bool

/-- Reader state of the sample collaborators: the calls not yet read, the tag
of the current start element and its attributes. -/
structure SampleReader where
  rest : List XmlCall
  tag : String
  attrs : List (String × String)

/-- The attributes written right after a start element. -/
def sampleAttrs : List XmlCall → List (String × String)
  | .writeAttribute name value :: rest => (name, value) :: sampleAttrs rest
  | _ => []

/-- Reads on to the next start element; stops with `false` at an end element
or at the end of the document. -/
def sampleNext : List XmlCall → Bool × SampleReader
  | [] => (false, ⟨[], "", []⟩)
  | .writeStartElement name :: rest => (true, ⟨rest, name, sampleAttrs rest⟩)
  | .writeEndElement :: rest => (false, ⟨rest, "", []⟩)
  | .writeEndDocument :: rest => (false, ⟨rest, "", []⟩)
  | .writeStartDocument :: rest => sampleNext rest
  | .writeAttribute _ _ :: rest => sampleNext rest

/-- Reads to the end element that closes the current element, `depth` start
elements being open inside it. -/
def sampleSkip : Nat → List XmlCall → List XmlCall
  | _, [] => []
  | depth, .writeStartElement _ :: rest => sampleSkip (depth + 1) rest
  | 0, .writeEndElement :: rest => rest
  | depth + 1, .writeEndElement :: rest => sampleSkip depth rest
  | depth, _ :: rest => sampleSkip depth rest

/-- The sample collaborators. -/
def sample : Collaborators where
  QByteArray := SampleBytes
  isEmpty := fun b => match b with
    | .raw [] => true
    | _ => false
  emptyArray := .raw []
  size := SampleBytes.size
  xmlWritten := fun calls => .xml calls
  XmlReader := SampleReader
  xmlReader := fun b => match b with
    | .xml calls => ⟨calls, "", []⟩
    | _ => ⟨[], "", []⟩
  readNextStartElement := fun r => sampleNext r.rest
  skipCurrentElement := fun r => ⟨sampleSkip 0 r.rest, "", []⟩
  tagName := fun r => r.tag
  attributeValue := fun r name => match r.attrs.find? (fun a => a.1 = name) with
    | some a => a.2
    | none => ""
  zipWritten := fun entries => .zip entries
  zipNoError := fun _ => true
  fileData := fun b name => match b with
    | .zip entries => match entries.find? (fun e => e.1 = name) with
      | some e => e.2
      | none => .raw []
    | _ => .raw []
  fileInfoList := fun b => match b with
    | .zip entries => entries.map (fun e => e.1)
    | _ => []
  QFile := SampleFile
  openReadAll := fun f => f.content
  openWriteOnly := fun f => some { f with content := some (.raw []) }
  write := fun f bytes =>
    if f.deviceFull then (-1, f) else (bytes.size, { f with content := some bytes })

/-- A file of the sample collaborators on a full device. -/
def sampleFileFull : SampleFile := { content := none, deviceFull := true }

end WorkspaceFile

/-! # Theorems -/

/-! ## Step lemmas -/

theorem wrapInt32_of_range {x : Int} (h1 : -2147483648 ≤ x) (h2 : x < 2147483648) :
    wrapInt32 x = x := by
  unfold wrapInt32; omega

theorem wrapInt32_emod (x : Int) : wrapInt32 x % 512 = x % 512 := by
  unfold wrapInt32; omega

theorem wrapInt32_range (x : Int) : INT_MIN ≤ wrapInt32 x ∧ wrapInt32 x ≤ INT_MAX := by
  unfold wrapInt32 INT_MIN INT_MAX; omega

theorem next_index {i : Int} (h0 : 0 ≤ i) : Int.tmod (i + 1) MAX_VOICES = (i + 1) % 512 := by
  rw [Int.tmod_eq_emod (by omega) (by decide)]; rfl

theorem push_eq (f : VoiceFifo V) (v : V) (h : IndexSafe f) :
    f.push v = .ok { buffer := Function.update f.buffer f.writeIdx v
                     writeIdx := (f.writeIdx + 1) % 512
                     n := wrapInt32 (f.n + 1)
                     readIdx := f.readIdx } () := by
  obtain ⟨-, hw0, hw1⟩ := h
  simp only [VoiceFifo.push, hw0, hw1, and_self, if_true, next_index hw0]

theorem pop_eq (f : VoiceFifo V) (h : IndexSafe f) (hn : f.n ≠ 0) :
    f.pop = .ok { buffer := f.buffer
                  n := wrapInt32 (f.n - 1)
                  readIdx := (f.readIdx + 1) % 512
                  writeIdx := f.writeIdx } (f.buffer f.readIdx) := by
  obtain ⟨⟨hr0, hr1⟩, -⟩ := h
  simp only [VoiceFifo.pop, hn, hr0, hr1, and_self, if_true, if_false, next_index hr0]

theorem pop_empty (f : VoiceFifo V) (hn : f.n = 0) : f.pop = .aborted f := by
  simp only [VoiceFifo.pop, hn, if_true]

theorem ring_construct (garbage : Int → V) : Ring (VoiceFifo.construct garbage) := by
  simp [Ring, IndexSafe, VoiceFifo.construct, MAX_VOICES, INT_MIN, INT_MAX]

theorem ring_push {f f1 : VoiceFifo V} {v : V} (h : Ring f) (e : f.push v = .ok f1 ()) :
    Ring f1 := by
  rw [push_eq f v h.1] at e
  injection e with e1
  subst e1
  obtain ⟨⟨⟨a, b⟩, c, d⟩, e, -⟩ := h
  have := wrapInt32_emod (f.n + 1)
  have := wrapInt32_range (f.n + 1)
  simp only [Ring, IndexSafe, MAX_VOICES] at *
  omega

theorem ring_pop {f f1 : VoiceFifo V} {v : V} (h : Ring f) (e : f.pop = .ok f1 v) :
    Ring f1 := by
  by_cases hn : f.n = 0
  · rw [pop_empty f hn] at e; cases e
  · rw [pop_eq f h.1 hn] at e
    injection e with e1
    subst e1
    obtain ⟨⟨⟨a, b⟩, c, d⟩, e, -⟩ := h
    have := wrapInt32_emod (f.n - 1)
    have := wrapInt32_range (f.n - 1)
    simp only [Ring, IndexSafe, MAX_VOICES] at *
    omega

/-! ## Runs -/

theorem run_append (f : VoiceFifo V) (a b : List (Op V)) :
    run f (a ++ b) = b.foldl exec (run f a) := by
  simp [run, List.foldl_append]

theorem exec_ring {o : Outcome (VoiceFifo V) (List V)} (op : Op V) (h : o.Holds Ring) :
    (exec o op).Holds Ring := by
  cases o with
  | outOfBounds => exact h
  | aborted s => exact h
  | ok f outs =>
    have hf : Ring f := h
    cases op with
    | push v =>
      have e := push_eq f v hf.1
      have r := ring_push hf e
      simp only [exec, e]
      exact r
    | pop =>
      by_cases hn : f.n = 0
      · simp only [exec, pop_empty f hn]
        exact hf
      · have e := pop_eq f hf.1 hn
        have r := ring_pop hf e
        simp only [exec, e]
        exact r

theorem foldl_exec_ring (ops : List (Op V)) :
    ∀ o : Outcome (VoiceFifo V) (List V), o.Holds Ring → (ops.foldl exec o).Holds Ring := by
  induction ops with
  | nil => intro o h; exact h
  | cons op rest ih => intro o h; exact ih _ (exec_ring op h)

theorem run_ring (garbage : Int → V) (ops : List (Op V)) :
    (run (VoiceFifo.construct garbage) ops).Holds Ring :=
  foldl_exec_ring ops _ (ring_construct garbage)

theorem reachable_ring {garbage : Int → V} {ops : List (Op V)} {f : VoiceFifo V} {outs : List V}
    (h : run (VoiceFifo.construct garbage) ops = .ok f outs) : Ring f := by
  have := run_ring garbage ops
  rw [h] at this
  exact this

theorem holds_mono {ρ : Type} {P Q : VoiceFifo V → Prop} (hPQ : ∀ f, P f → Q f)
    {o : Outcome (VoiceFifo V) ρ} (h : o.Holds P) : o.Holds Q := by
  cases o with
  | outOfBounds => exact h
  | aborted s => exact hPQ _ h
  | ok f outs => exact hPQ _ h

theorem foldl_exec_count (ops : List (Op V)) :
    ∀ (o : Outcome (VoiceFifo V) (List V)) (k : Nat), o.Holds (CountWithin k) →
      k + pushCount ops < 2147483648 →
      (ops.foldl exec o).Holds (CountWithin (k + pushCount ops)) := by
  induction ops with
  | nil => intro o k h _; exact h
  | cons op rest ih =>
    intro o k h hk
    cases op with
    | push v =>
      have hk1 : (k + 1) + pushCount rest < 2147483648 := by
        simp only [pushCount] at hk; omega
      have step : (exec o (.push v)).Holds (CountWithin (k + 1)) := by
        cases o with
        | outOfBounds => exact h
        | aborted s =>
          obtain ⟨hr, h0, h1⟩ := h
          exact ⟨hr, h0, by push_cast; omega⟩
        | ok f outs =>
          obtain ⟨hr, h0, h1⟩ := h
          have e := push_eq f v hr.1
          have r := ring_push hr e
          simp only [exec, e]
          refine ⟨r, ?_, ?_⟩
          · show 0 ≤ wrapInt32 (f.n + 1)
            rw [wrapInt32_of_range (by omega) (by omega)]; omega
          · show wrapInt32 (f.n + 1) ≤ ((k + 1 : Nat) : Int)
            rw [wrapInt32_of_range (by omega) (by omega)]; push_cast; omega
      have := ih _ (k + 1) step hk1
      have e : k + pushCount (Op.push v :: rest) = (k + 1) + pushCount rest := by
        simp only [pushCount]; omega
      rw [e]; exact this
    | pop =>
      have hk1 : k + pushCount rest < 2147483648 := by
        simp only [pushCount] at hk; omega
      have step : (exec o .pop).Holds (CountWithin k) := by
        cases o with
        | outOfBounds => exact h
        | aborted s => exact h
        | ok f outs =>
          obtain ⟨hr, h0, h1⟩ := h
          by_cases hn : f.n = 0
          · simp only [exec, pop_empty f hn]
            exact ⟨hr, h0, h1⟩
          · have e := pop_eq f hr.1 hn
            have r := ring_pop hr e
            simp only [exec, e]
            refine ⟨r, ?_, ?_⟩
            · show 0 ≤ wrapInt32 (f.n - 1)
              rw [wrapInt32_of_range (by omega) (by omega)]; omega
            · show wrapInt32 (f.n - 1) ≤ (k : Int)
              rw [wrapInt32_of_range (by omega) (by omega)]; omega
      exact ih _ k step hk1

/-- Pushing the voices `vs` one after the other never fails: the count grows by
their number (modulo 2^32), the write index advances by their number (modulo
the array size) and the read index stays. -/
theorem foldl_exec_pushes (vs : List V) :
    ∀ (f : VoiceFifo V) (outs : List V), Ring f →
      ∃ f1, (vs.map Op.push).foldl exec (.ok f outs) = .ok f1 outs ∧ Ring f1 ∧
        f1.n = wrapInt32 (f.n + vs.length) ∧ f1.readIdx = f.readIdx ∧
        f1.writeIdx = (f.writeIdx + vs.length) % 512 := by
  induction vs with
  | nil =>
    intro f outs h
    refine ⟨f, rfl, h, ?_, rfl, ?_⟩
    · obtain ⟨-, -, a, b⟩ := h
      simp only [INT_MIN, INT_MAX] at a b
      simp only [List.length_nil, Nat.cast_zero, add_zero]
      rw [wrapInt32_of_range (by omega) (by omega)]
    · obtain ⟨⟨-, c, d⟩, -⟩ := h
      simp only [MAX_VOICES] at d
      simp only [List.length_nil, Nat.cast_zero, add_zero]
      omega
  | cons v vs ih =>
    intro f outs h
    have e := push_eq f v h.1
    obtain ⟨f1, h1, h2, h3, h4, h5⟩ := ih _ outs (ring_push h e)
    refine ⟨f1, ?_, h2, ?_, ?_, ?_⟩
    · simp only [List.map_cons, List.foldl_cons, exec, e]
      exact h1
    · rw [h3]; show wrapInt32 (wrapInt32 (f.n + 1) + vs.length) = _
      simp only [List.length_cons]
      push_cast; unfold wrapInt32; omega
    · rw [h4]
    · rw [h5]; show ((f.writeIdx + 1) % 512 + vs.length) % 512 = _
      simp only [List.length_cons]
      push_cast; omega

theorem withinCapacity_of_append (pre post : List (Op V)) :
    ∀ a : Int, WithinCapacity a (pre ++ post) → WithinCapacity a pre := by
  induction pre with
  | nil => intro a _; trivial
  | cons op rest ih =>
    intro a h
    exact ⟨h.1, ih _ h.2⟩

theorem foldl_exec_active (ops : List (Op V)) :
    ∀ (f : VoiceFifo V) (outs : List V) (a : Int), Ring f → f.n = MAX_VOICES - a →
      WithinCapacity a ops →
      ∃ f1 outs1, ops.foldl exec (.ok f outs) = .ok f1 outs1 ∧ Ring f1 ∧
        f1.n = MAX_VOICES - (a + active ops) := by
  induction ops with
  | nil =>
    intro f outs a hr hn _
    exact ⟨f, outs, rfl, hr, by simp [active, hn]⟩
  | cons op rest ih =>
    intro f outs a hr hn hc
    obtain ⟨⟨hc0, hc1⟩, hc2⟩ := hc
    cases op with
    | push v =>
      have e := push_eq f v hr.1
      have hn1 : wrapInt32 (f.n + 1) = MAX_VOICES - (a + activeDelta (Op.push v)) := by
        simp only [activeDelta, MAX_VOICES] at *
        rw [wrapInt32_of_range (by omega) (by omega)]; omega
      obtain ⟨f1, outs1, h1, h2, h3⟩ := ih _ outs _ (ring_push hr e) hn1 hc2
      refine ⟨f1, outs1, ?_, h2, ?_⟩
      · simp only [List.foldl_cons, exec, e]; exact h1
      · rw [h3]; simp only [active]; omega
    | pop =>
      have hne : f.n ≠ 0 := by
        simp only [activeDelta, MAX_VOICES] at *; omega
      have e := pop_eq f hr.1 hne
      have hn1 : wrapInt32 (f.n - 1) = MAX_VOICES - (a + activeDelta (Op.pop : Op V)) := by
        simp only [activeDelta, MAX_VOICES] at *
        rw [wrapInt32_of_range (by omega) (by omega)]; omega
      obtain ⟨f1, outs1, h1, h2, h3⟩ := ih _ (outs ++ [f.buffer f.readIdx]) _ (ring_pop hr e) hn1 hc2
      refine ⟨f1, outs1, ?_, h2, ?_⟩
      · simp only [List.foldl_cons, exec, e]; exact h1
      · rw [h3]; simp only [active]; omega

/-! ## Refinement of the abstract queue -/

theorem represents_construct (garbage : Int → V) :
    Represents (VoiceFifo.construct garbage) [] :=
  ⟨ring_construct garbage, rfl, by simp, fun i hi => absurd hi (by simp)⟩

theorem represents_push {f : VoiceFifo V} {q : List V} (v : V) (h : Represents f q)
    (hroom : q.length + 1 ≤ 512) :
    ∃ f1, f.push v = .ok f1 () ∧ Represents f1 (q ++ [v]) := by
  obtain ⟨hr, hn, -, hq⟩ := h
  have e := push_eq f v hr.1
  refine ⟨_, e, ring_push hr e, ?_, by simpa using hroom, ?_⟩
  · show wrapInt32 (f.n + 1) = ((q ++ [v]).length : Int)
    rw [wrapInt32_of_range (by omega) (by omega), hn]; simp
  · intro i hi
    obtain ⟨⟨⟨a, b⟩, c, d⟩, hw, -⟩ := hr
    simp only [MAX_VOICES] at b d hw
    show (q ++ [v])[i]? = some (Function.update f.buffer f.writeIdx v ((f.readIdx + i) % 512))
    by_cases hlt : i < q.length
    · rw [List.getElem?_append_left hlt, hq i hlt,
        Function.update_noteq (by omega)]
    · have hi1 : i = q.length := by
        simp only [List.length_append, List.length_singleton] at hi; omega
      have hidx : (f.readIdx + (i : Int)) % 512 = f.writeIdx := by
        rw [hw, hn, hi1]
      rw [hidx, Function.update_same, hi1, List.getElem?_concat_length]

theorem represents_pop {f : VoiceFifo V} {x : V} {q : List V} (h : Represents f (x :: q)) :
    ∃ f1, f.pop = .ok f1 x ∧ Represents f1 q := by
  obtain ⟨hr, hn, hlen, hq⟩ := h
  simp only [List.length_cons] at hn hlen hq
  have hne : f.n ≠ 0 := by rw [hn]; push_cast; omega
  have e := pop_eq f hr.1 hne
  obtain ⟨⟨⟨a, b⟩, c, d⟩, hw, -⟩ := id hr
  simp only [MAX_VOICES] at b d hw
  have hx : f.buffer f.readIdx = x := by
    have h0 := hq 0 (by omega)
    simp only [List.getElem?_cons_zero, Nat.cast_zero, add_zero] at h0
    have hidx : f.readIdx % 512 = f.readIdx := by omega
    rw [hidx] at h0
    exact (Option.some.inj h0).symm
  rw [hx] at e
  refine ⟨_, e, ring_pop hr e, ?_, by omega, ?_⟩
  · show wrapInt32 (f.n - 1) = (q.length : Int)
    rw [wrapInt32_of_range (by omega) (by omega), hn]; push_cast; omega
  · intro i hi
    show q[i]? = some (f.buffer (((f.readIdx + 1) % 512 + i) % 512))
    have h1 := hq (i + 1) (by omega)
    rw [List.getElem?_cons_succ] at h1
    have hidx : ((f.readIdx + 1) % 512 + (i : Int)) % 512 = (f.readIdx + ((i + 1 : Nat) : Int)) % 512 := by
      push_cast; omega
    rw [hidx]; exact h1

theorem foldl_exec_represents (ops : List (Op V)) :
    ∀ (f : VoiceFifo V) (q outs : List V), Represents f q → Legal q.length ops →
      ∃ f1 q1 outs1, ops.foldl exec (.ok f outs) = .ok f1 outs1 ∧
        ops.foldl queueExec (some (q, outs)) = some (q1, outs1) ∧
        Represents f1 q1 ∧ outs1 ++ q1 = outs ++ q ++ pushed ops := by
  induction ops with
  | nil =>
    intro f q outs h _
    exact ⟨f, q, outs, rfl, rfl, h, by simp [pushed]⟩
  | cons op rest ih =>
    intro f q outs h hl
    cases op with
    | push v =>
      obtain ⟨hroom, hl1⟩ := hl
      obtain ⟨f1, e, h1⟩ := represents_push v h hroom
      have hl2 : Legal (q ++ [v]).length rest := by simpa using hl1
      obtain ⟨f2, q2, outs2, a, b, c, d⟩ := ih f1 (q ++ [v]) outs h1 hl2
      refine ⟨f2, q2, outs2, ?_, ?_, c, ?_⟩
      · simp only [List.foldl_cons, exec, e]; exact a
      · simp only [List.foldl_cons, queueExec]; exact b
      · rw [d]; simp [pushed]
    | pop =>
      obtain ⟨hpos, hl1⟩ := hl
      cases q with
      | nil => simp at hpos
      | cons x q1 =>
        obtain ⟨f1, e, h1⟩ := represents_pop h
        have hl2 : Legal q1.length rest := by simpa using hl1
        obtain ⟨f2, q2, outs2, a, b, c, d⟩ := ih f1 q1 (outs ++ [x]) h1 hl2
        refine ⟨f2, q2, outs2, ?_, ?_, c, ?_⟩
        · simp only [List.foldl_cons, exec, e]; exact a
        · simp only [List.foldl_cons, queueExec]; exact b
        · rw [d]; simp [pushed]

/-! ## Claims on `VoiceFifo` -/

/-- C3: the ring buffer refines the first-in-first-out list queue. For every
sequence of `push` and `pop` calls on a freshly constructed fifo that never
stores more than `MAX_VOICES` entries and never pops with no entry stored, the
program keeps running, the voices returned by its pops are the voices the
abstract queue (push appends at the back, pop removes from the front) returns,
in the same order, and these are the earliest pushed voices: the returned
voices followed by the queue content are the pushed voices in push order. -/
theorem fifo_refines_queue (garbage : Int → V) (ops : List (Op V)) (h : Legal 0 ops) :
    ∃ f q outs, run (VoiceFifo.construct garbage) ops = .ok f outs ∧
      queueRun ops = some (q, outs) ∧ Represents f q ∧ outs ++ q = pushed ops := by
  obtain ⟨f, q, outs, a, b, c, d⟩ :=
    foldl_exec_represents ops (VoiceFifo.construct garbage) [] [] (represents_construct garbage) h
  exact ⟨f, q, outs, a, b, c, by simpa using d⟩

/-- Witness of C3: two pushes, a pop, a push and two pops. -/
theorem fifo_refines_queue_witness :
    Legal 0 [Op.push (1 : Nat), Op.push 2, Op.pop, Op.push 3, Op.pop, Op.pop] ∧
    ∃ f q outs, run (VoiceFifo.construct (fun _ => (0 : Nat)))
        [Op.push 1, Op.push 2, Op.pop, Op.push 3, Op.pop, Op.pop] = .ok f outs ∧
      queueRun [Op.push (1 : Nat), Op.push 2, Op.pop, Op.push 3, Op.pop, Op.pop] = some (q, outs) ∧
      Represents f q ∧
      outs ++ q = pushed [Op.push (1 : Nat), Op.push 2, Op.pop, Op.push 3, Op.pop, Op.pop] :=
  ⟨by simp [Legal], fifo_refines_queue (fun _ => (0 : Nat)) _ (by simp [Legal])⟩


/-- C1: free-set size invariant. A `VoiceFifo` is constructed and filled with
`MAX_VOICES` pushes; then any sequence of `pop` (acquire) and `push` (release)
calls is made whose active count, pops minus pushes, stays between 0 and
`MAX_VOICES` after every call. After every prefix `pre` of that sequence the
program is still running and the count `n` equals `MAX_VOICES` minus the active
count of `pre`. -/
theorem freeSet_size_invariant (garbage : Int → V) (voices : List V)
    (hfull : voices.length = 512) (pre post : List (Op V))
    (h : WithinCapacity 0 (pre ++ post)) :
    ∃ f outs, run (VoiceFifo.construct garbage) (voices.map Op.push ++ pre) = .ok f outs ∧
      f.n = MAX_VOICES - active pre := by
  obtain ⟨f0, h0, hr0, hn0, -, -⟩ :=
    foldl_exec_pushes voices (VoiceFifo.construct garbage) [] (ring_construct garbage)
  have hn : f0.n = MAX_VOICES - 0 := by
    rw [hn0, hfull]
    simp [VoiceFifo.construct, wrapInt32, MAX_VOICES]
  obtain ⟨f1, outs1, h1, -, h3⟩ :=
    foldl_exec_active pre f0 [] 0 hr0 hn (withinCapacity_of_append pre post 0 h)
  refine ⟨f1, outs1, ?_, by simpa using h3⟩
  rw [run_append]
  show pre.foldl exec ((voices.map Op.push).foldl exec (.ok (VoiceFifo.construct garbage) [])) = _
  rw [h0, h1]

/-- Witness of C1: a pool of 512 voices, one acquire followed by one release. -/
theorem freeSet_size_invariant_witness :
    (List.replicate 512 (0 : Nat)).length = 512 ∧
    WithinCapacity 0 ([Op.pop] ++ [Op.push (0 : Nat)]) ∧
    ∃ f outs, run (VoiceFifo.construct (fun _ => (0 : Nat)))
        ((List.replicate 512 (0 : Nat)).map Op.push ++ [Op.pop]) = .ok f outs ∧
      f.n = MAX_VOICES - active [(Op.pop : Op Nat)] :=
  ⟨List.length_replicate _ _, by simp [WithinCapacity, activeDelta, MAX_VOICES],
    freeSet_size_invariant (fun _ => (0 : Nat)) (List.replicate 512 0)
      (List.length_replicate _ _) [Op.pop] [Op.push 0]
      (by simp [WithinCapacity, activeDelta, MAX_VOICES])⟩

/-- The state after `k` pushes on a freshly constructed fifo. -/
theorem run_pushes (garbage : Int → V) (vs : List V) :
    ∃ f, run (VoiceFifo.construct garbage) (vs.map Op.push) = .ok f [] ∧ Ring f ∧
      f.n = wrapInt32 vs.length ∧ f.readIdx = 0 := by
  obtain ⟨f, h, hr, hn, hi, -⟩ :=
    foldl_exec_pushes vs (VoiceFifo.construct garbage) [] (ring_construct garbage)
  refine ⟨f, h, hr, ?_, hi⟩
  rw [hn]; simp [VoiceFifo.construct]

theorem run_fullFifo :
    run (VoiceFifo.construct (fun _ => (0 : Nat))) ((List.replicate 512 (7 : Nat)).map Op.push)
      = .ok fullFifo [] ∧ fullFifo.n = 512 := by
  obtain ⟨f, h, -, hn, -⟩ := run_pushes (fun _ => (0 : Nat)) (List.replicate 512 (7 : Nat))
  have e : fullFifo = f := by
    unfold fullFifo; rw [h]
  rw [e]
  refine ⟨h, ?_⟩
  rw [hn, List.length_replicate]
  decide

/-- C2 (as stated) fails: after 2^31 pushes on a freshly constructed fifo the
count is `INT_MIN`, the fifo is not empty, `pop` returns a voice, and the count
becomes `INT_MAX`: it does not decrease by one. -/
theorem pop_count_not_decreased :
    ∃ f f1 v, run (VoiceFifo.construct (fun _ => (0 : Nat)))
        ((List.replicate 2147483648 (0 : Nat)).map Op.push) = .ok f [] ∧
      f.n = -2147483648 ∧ f.empty = false ∧ f.pop = .ok f1 v ∧ f1.n = 2147483647 ∧
      f1.n ≠ f.n - 1 := by
  obtain ⟨f, h, hr, hn, -⟩ := run_pushes (fun _ => (0 : Nat)) (List.replicate 2147483648 (0 : Nat))
  have hn1 : f.n = -2147483648 := by
    rw [hn, List.length_replicate]; decide
  have hne : f.n ≠ 0 := by rw [hn1]; decide
  refine ⟨f, _, _, h, hn1, ?_, pop_eq f hr.1 hne, ?_, ?_⟩
  · simp [VoiceFifo.empty, hne]
  · show wrapInt32 (f.n - 1) = 2147483647
    rw [hn1]; decide
  · show wrapInt32 (f.n - 1) ≠ f.n - 1
    rw [hn1]; decide

/-- C2 (amended): on every fifo reached from the constructed state, `pop` is
aborted exactly when the fifo is empty (`empty()` is true, `n == 0`), and then
the fifo is unchanged; on a fifo with `n != 0` it does not fail, returns the
voice in slot `readIdx`, and the new count is `n - 1` in 32-bit arithmetic,
which is exactly `n - 1` unless `n` is `INT_MIN`. -/
theorem pop_aborts_iff_empty (garbage : Int → V) (ops : List (Op V)) (f : VoiceFifo V)
    (outs : List V) (h : run (VoiceFifo.construct garbage) ops = .ok f outs) :
    ((∃ s, f.pop = .aborted s) ↔ f.empty = true) ∧
    (f.empty = true ↔ f.n = 0) ∧
    (∀ s, f.pop = .aborted s → s = f) ∧
    (f.n ≠ 0 → ∃ f1, f.pop = .ok f1 (f.buffer f.readIdx) ∧ f1.n = wrapInt32 (f.n - 1) ∧
      (f.n ≠ INT_MIN → f1.n = f.n - 1)) := by
  have hr := reachable_ring h
  have hempty : f.empty = true ↔ f.n = 0 := by simp [VoiceFifo.empty]
  have hok : f.n ≠ 0 → ∃ f1, f.pop = .ok f1 (f.buffer f.readIdx) ∧ f1.n = wrapInt32 (f.n - 1) ∧
      (f.n ≠ INT_MIN → f1.n = f.n - 1) := by
    intro hne
    refine ⟨_, pop_eq f hr.1 hne, rfl, ?_⟩
    intro hmin
    obtain ⟨-, -, a, b⟩ := hr
    simp only [INT_MIN, INT_MAX] at a b hmin
    show wrapInt32 (f.n - 1) = f.n - 1
    rw [wrapInt32_of_range (by omega) (by omega)]
  refine ⟨?_, hempty, ?_, hok⟩
  · rw [hempty]
    constructor
    · rintro ⟨s, hs⟩
      by_contra hne
      obtain ⟨f1, h1, -⟩ := hok hne
      rw [h1] at hs; cases hs
    · intro h0; exact ⟨f, pop_empty f h0⟩
  · intro s hs
    by_cases h0 : f.n = 0
    · rw [pop_empty f h0] at hs; injection hs with e; exact e.symm
    · obtain ⟨f1, h1, -⟩ := hok h0
      rw [h1] at hs; cases hs

/-- Witness of C2 (amended): the fifo reached by 512 pushes. -/
theorem pop_aborts_iff_empty_witness :
    run (VoiceFifo.construct (fun _ => (0 : Nat))) ((List.replicate 512 (7 : Nat)).map Op.push)
      = .ok fullFifo [] ∧
    (((∃ s, fullFifo.pop = .aborted s) ↔ fullFifo.empty = true) ∧
    (fullFifo.empty = true ↔ fullFifo.n = 0) ∧
    (∀ s, fullFifo.pop = .aborted s → s = fullFifo) ∧
    (fullFifo.n ≠ 0 → ∃ f1, fullFifo.pop = .ok f1 (fullFifo.buffer fullFifo.readIdx) ∧
      f1.n = wrapInt32 (fullFifo.n - 1) ∧ (fullFifo.n ≠ INT_MIN → f1.n = fullFifo.n - 1))) :=
  ⟨run_fullFifo.1, pop_aborts_iff_empty _ _ fullFifo [] run_fullFifo.1⟩

/-- C8 (as stated) fails: after 2^31 pushes on a freshly constructed fifo the
count `n` has wrapped to `INT_MIN`, a negative value. -/
theorem count_negative_after_pushes :
    (run (VoiceFifo.construct (fun _ => (0 : Nat)))
        ((List.replicate 2147483648 (0 : Nat)).map Op.push)).Holds (fun f => f.n = -2147483648) ∧
    ¬ (run (VoiceFifo.construct (fun _ => (0 : Nat)))
        ((List.replicate 2147483648 (0 : Nat)).map Op.push)).Holds
          (fun f => IndexSafe f ∧ 0 ≤ f.n) := by
  obtain ⟨f, h, hr, hn, -⟩ := run_pushes (fun _ => (0 : Nat)) (List.replicate 2147483648 (0 : Nat))
  have hn1 : f.n = -2147483648 := by
    rw [hn, List.length_replicate]; decide
  rw [h]
  refine ⟨hn1, ?_⟩
  rintro ⟨-, h0⟩
  rw [hn1] at h0
  exact absurd h0 (by decide)

/-- C8 (amended): for every sequence of `push` and `pop` calls on a freshly
constructed fifo, also one that pushes more than `MAX_VOICES` entries, no call
accesses `buffer[]` out of range and `readIdx` and `writeIdx` stay in
`[0, MAX_VOICES)`; the count `n` is not negative as long as the sequence holds
fewer than 2^31 pushes. -/
theorem index_safety (garbage : Int → V) (ops : List (Op V)) :
    (run (VoiceFifo.construct garbage) ops).Holds IndexSafe ∧
    (pushCount ops < 2147483648 →
      (run (VoiceFifo.construct garbage) ops).Holds (fun f => 0 ≤ f.n)) := by
  refine ⟨holds_mono (fun f hf => hf.1) (run_ring garbage ops), ?_⟩
  intro hk
  have h0 : (Outcome.ok (VoiceFifo.construct garbage) ([] : List V)).Holds (CountWithin 0) :=
    ⟨ring_construct garbage, by simp [VoiceFifo.construct], by simp [VoiceFifo.construct]⟩
  have := foldl_exec_count ops _ 0 h0 (by omega)
  exact holds_mono (fun f hf => hf.2.1) this

/-- Witness of C8 (amended): three pushes and two pops. -/
theorem index_safety_witness :
    pushCount [Op.push (1 : Nat), Op.pop, Op.push 2, Op.pop, Op.pop] < 2147483648 ∧
    (run (VoiceFifo.construct (fun _ => (0 : Nat)))
      [Op.push 1, Op.pop, Op.push 2, Op.pop, Op.pop]).Holds (fun f => 0 ≤ f.n) :=
  ⟨by decide, (index_safety (fun _ => (0 : Nat)) _).2 (by decide)⟩

/-- C9: `push` has no capacity guard. On a fifo that holds `MAX_VOICES` entries
(reached from the constructed state, `n == MAX_VOICES`) the write index equals
the read index; `push(v)` does not fail, stores `v` in slot `readIdx`, the slot
of the oldest entry not yet popped, and makes the count `MAX_VOICES + 1`; the
next `pop` returns `v`. -/
theorem push_overwrites_oldest (garbage : Int → V) (ops : List (Op V)) (f : VoiceFifo V)
    (outs : List V) (v : V) (h : run (VoiceFifo.construct garbage) ops = .ok f outs)
    (hfull : f.n = MAX_VOICES) :
    f.writeIdx = f.readIdx ∧
    ∃ f1 f2, f.push v = .ok f1 () ∧ f1.buffer f.readIdx = v ∧ f1.n = MAX_VOICES + 1 ∧
      f1.readIdx = f.readIdx ∧ f1.pop = .ok f2 v ∧ f2.n = MAX_VOICES := by
  have hr := reachable_ring h
  obtain ⟨⟨⟨a, b⟩, c, d⟩, e, -⟩ := id hr
  have hw : f.writeIdx = f.readIdx := by
    simp only [MAX_VOICES] at *; omega
  have e1 := push_eq f v hr.1
  have hr1 := ring_push hr e1
  have hn1 : wrapInt32 (f.n + 1) = MAX_VOICES + 1 := by
    rw [hfull]; decide
  have hv : Function.update f.buffer f.writeIdx v f.readIdx = v := by
    rw [hw]; exact Function.update_same _ _ _
  have e2 := pop_eq _ hr1.1 (show wrapInt32 (f.n + 1) ≠ 0 by rw [hn1]; decide)
  refine ⟨hw, _, ⟨Function.update f.buffer f.writeIdx v, wrapInt32 (wrapInt32 (f.n + 1) - 1),
    (f.writeIdx + 1) % 512, (f.readIdx + 1) % 512⟩, e1, hv, hn1, rfl, ?_, ?_⟩
  · rw [e2]
    show Outcome.ok _ (Function.update f.buffer f.writeIdx v f.readIdx) = _
    rw [hv]
  · show wrapInt32 (wrapInt32 (f.n + 1) - 1) = MAX_VOICES
    rw [hfull]; decide

/-- Witness of C9: the fifo reached by 512 pushes, and one more push. -/
theorem push_overwrites_oldest_witness :
    run (VoiceFifo.construct (fun _ => (0 : Nat))) ((List.replicate 512 (7 : Nat)).map Op.push)
      = .ok fullFifo [] ∧ fullFifo.n = MAX_VOICES ∧
    (fullFifo.writeIdx = fullFifo.readIdx ∧
    ∃ f1 f2, fullFifo.push 9 = .ok f1 () ∧ f1.buffer fullFifo.readIdx = 9 ∧
      f1.n = MAX_VOICES + 1 ∧ f1.readIdx = fullFifo.readIdx ∧ f1.pop = .ok f2 9 ∧
      f2.n = MAX_VOICES) :=
  ⟨run_fullFifo.1, run_fullFifo.2,
    push_overwrites_oldest _ _ fullFifo [] 9 run_fullFifo.1 run_fullFifo.2⟩

/-! ## Arithmetic of `double` -/

theorem roundHalfEven_floor_le (x : ℚ) : ⌊x⌋ ≤ roundHalfEven x := by
  unfold roundHalfEven
  split_ifs <;> omega

theorem roundHalfEven_le_floor_add_one (x : ℚ) : roundHalfEven x ≤ ⌊x⌋ + 1 := by
  unfold roundHalfEven
  split_ifs <;> omega

theorem roundHalfEven_intCast (n : ℤ) : roundHalfEven (n : ℚ) = n := by
  unfold roundHalfEven
  simp

theorem roundHalfEven_mono {x y : ℚ} (h : x ≤ y) : roundHalfEven x ≤ roundHalfEven y := by
  have hf : ⌊x⌋ ≤ ⌊y⌋ := Int.floor_mono h
  rcases lt_or_eq_of_le hf with hlt | heq
  · have h1 := roundHalfEven_le_floor_add_one x
    have h2 := roundHalfEven_floor_le y
    omega
  · have hx : x - ⌊x⌋ ≤ y - ⌊y⌋ := by rw [heq]; linarith
    unfold roundHalfEven
    rw [heq]
    split_ifs <;> first | omega | (exfalso; linarith)

theorem roundHalfEven_eq_of_near {x : ℚ} {n : ℤ} (h1 : (n : ℚ) - 1 / 2 < x)
    (h2 : x < (n : ℚ) + 1 / 2) : roundHalfEven x = n := by
  have hfl := Int.floor_le x
  have hlt := Int.lt_floor_add_one x
  have hcases : ⌊x⌋ = n ∨ ⌊x⌋ = n - 1 := by
    have a : ⌊x⌋ < n + 1 := by
      have : ((⌊x⌋ : ℤ) : ℚ) < ((n + 1 : ℤ) : ℚ) := by push_cast; linarith
      exact_mod_cast this
    have b : n - 2 < ⌊x⌋ := by
      have : ((n - 2 : ℤ) : ℚ) < ((⌊x⌋ : ℤ) : ℚ) := by push_cast; linarith
      exact_mod_cast this
    omega
  unfold roundHalfEven
  rcases hcases with hc | hc
  · have : x - ((⌊x⌋ : ℤ) : ℚ) < 1 / 2 := by rw [hc]; linarith
    rw [if_pos this, hc]
  · have e : ((⌊x⌋ : ℤ) : ℚ) = n - 1 := by rw [hc]; push_cast; ring
    have a : ¬ (x - ((⌊x⌋ : ℤ) : ℚ) < 1 / 2) := by rw [e]; linarith
    have b : 1 / 2 < x - ((⌊x⌋ : ℤ) : ℚ) := by rw [e]; linarith
    rw [if_neg a, if_pos b, hc]; ring

theorem roundHalfEven_le_of_le {x : ℚ} {n : ℤ} (h : x ≤ n) : roundHalfEven x ≤ n := by
  have := roundHalfEven_mono h
  rwa [roundHalfEven_intCast] at this

theorem le_roundHalfEven_of_le {x : ℚ} {n : ℤ} (h : (n : ℚ) ≤ x) : n ≤ roundHalfEven x := by
  have := roundHalfEven_mono h
  rwa [roundHalfEven_intCast] at this

theorem ulp_pos (a : ℚ) : 0 < ulp a := by
  unfold ulp; positivity

theorem binade_ge (a : ℚ) : -1022 ≤ binade a := le_max_right _ _

theorem lt_zpow_binade {a : ℚ} : a < (2 : ℚ) ^ (binade a + 1) := by
  have h := Int.lt_zpow_succ_log_self (R := ℚ) (b := 2) (by norm_num) a
  simp only [Nat.cast_ofNat] at h
  refine lt_of_lt_of_le h ?_
  apply zpow_le_zpow_right₀ (by norm_num)
  have : Int.log 2 a ≤ binade a := le_max_left _ _
  omega

theorem zpow_binade_le {a : ℚ} (ha : 0 < a) (h : -1022 < binade a) :
    (2 : ℚ) ^ binade a ≤ a := by
  have e : binade a = Int.log 2 a := by
    unfold binade at h ⊢
    rcases max_cases (Int.log 2 a) (-1022) with ⟨h1, _⟩ | ⟨h1, _⟩
    · exact h1
    · rw [h1] at h; omega
  rw [e]
  have := Int.zpow_log_le_self (R := ℚ) (b := 2) (by norm_num) ha
  simpa using this

theorem binade_mono {a b : ℚ} (ha : 0 < a) (h : a ≤ b) : binade a ≤ binade b := by
  unfold binade
  exact max_le_max (Int.log_mono_right ha h) (le_refl _)

theorem zpow_succ_eq_ulp (a : ℚ) : (2 : ℚ) ^ (binade a + 1) = ((2 ^ 53 : ℤ) : ℚ) * ulp a := by
  unfold ulp
  have : ((2 ^ 53 : ℤ) : ℚ) = (2 : ℚ) ^ (53 : ℤ) := by norm_num
  rw [this, ← zpow_add₀ (by norm_num : (2 : ℚ) ≠ 0)]
  congr 1; ring

theorem zpow_eq_ulp (a : ℚ) : (2 : ℚ) ^ binade a = ((2 ^ 52 : ℤ) : ℚ) * ulp a := by
  unfold ulp
  have : ((2 ^ 52 : ℤ) : ℚ) = (2 : ℚ) ^ (52 : ℤ) := by norm_num
  rw [this, ← zpow_add₀ (by norm_num : (2 : ℚ) ≠ 0)]
  congr 1; ring

theorem roundMag_zero : roundMag 0 = 0 := by
  unfold roundMag
  simp [roundHalfEven]

theorem roundMag_nonneg {a : ℚ} (ha : 0 ≤ a) : 0 ≤ roundMag a := by
  unfold roundMag
  have hu := ulp_pos a
  have : (0 : ℤ) ≤ roundHalfEven (a / ulp a) :=
    le_roundHalfEven_of_le (by simpa using div_nonneg ha hu.le)
  have : (0 : ℚ) ≤ (roundHalfEven (a / ulp a) : ℚ) := by exact_mod_cast this
  positivity

theorem roundMag_le_zpow (a : ℚ) : roundMag a ≤ (2 : ℚ) ^ (binade a + 1) := by
  have hu := ulp_pos a
  rw [zpow_succ_eq_ulp]
  unfold roundMag
  apply mul_le_mul_of_nonneg_right _ hu.le
  have : a / ulp a ≤ ((2 ^ 53 : ℤ) : ℚ) := by
    rw [div_le_iff₀ hu, ← zpow_succ_eq_ulp]
    exact lt_zpow_binade.le
  exact_mod_cast roundHalfEven_le_of_le this

theorem zpow_le_roundMag {a : ℚ} (h : (2 : ℚ) ^ binade a ≤ a) : (2 : ℚ) ^ binade a ≤ roundMag a := by
  have hu := ulp_pos a
  rw [zpow_eq_ulp]
  unfold roundMag
  apply mul_le_mul_of_nonneg_right _ hu.le
  have : ((2 ^ 52 : ℤ) : ℚ) ≤ a / ulp a := by
    rw [le_div_iff₀ hu, ← zpow_eq_ulp]
    exact h
  exact_mod_cast le_roundHalfEven_of_le this

theorem roundMag_mono {a b : ℚ} (ha : 0 ≤ a) (h : a ≤ b) : roundMag a ≤ roundMag b := by
  rcases eq_or_lt_of_le ha with h0 | hpos
  · rw [← h0, roundMag_zero]; exact roundMag_nonneg (ha.trans h)
  · have hb := binade_mono hpos h
    rcases eq_or_lt_of_le hb with heq | hlt
    · have hu : ulp a = ulp b := by unfold ulp; rw [heq]
      unfold roundMag
      rw [hu]
      apply mul_le_mul_of_nonneg_right _ (ulp_pos b).le
      have : a / ulp b ≤ b / ulp b := div_le_div_of_nonneg_right h (ulp_pos b).le
      exact_mod_cast roundHalfEven_mono this
    · have h1 := roundMag_le_zpow a
      have h2 : (2 : ℚ) ^ (binade a + 1) ≤ (2 : ℚ) ^ binade b :=
        zpow_le_zpow_right₀ (by norm_num) (by omega)
      have h3 := zpow_le_roundMag (zpow_binade_le (hpos.trans_le h)
        (lt_of_le_of_lt (binade_ge a) hlt))
      linarith

theorem roundFinite_mono {x y : ℚ} (h : x ≤ y) : roundFinite x ≤ roundFinite y := by
  unfold roundFinite
  split_ifs with hx hy hy
  · have := roundMag_mono (a := -y) (b := -x) (by linarith) (by linarith)
    linarith
  · have h1 := roundMag_nonneg (a := -x) (by linarith)
    have h2 := roundMag_nonneg (a := y) (by linarith)
    linarith
  · exfalso; linarith
  · exact roundMag_mono (by linarith) h

theorem log_eq_of_bounds {a : ℚ} {e : ℤ} (h1 : (2 : ℚ) ^ e ≤ a) (h2 : a < (2 : ℚ) ^ (e + 1)) :
    Int.log 2 a = e := by
  have ha : 0 < a := lt_of_lt_of_le (by positivity) h1
  apply le_antisymm
  · have := (Int.lt_zpow_iff_log_lt (R := ℚ) (b := 2) (by norm_num) ha).1
      (by rw [Nat.cast_ofNat]; exact h2)
    omega
  · exact (Int.zpow_le_iff_le_log (R := ℚ) (b := 2) (by norm_num) ha).1
      (by rw [Nat.cast_ofNat]; exact h1)

theorem binade_eq_of_bounds {a : ℚ} {e : ℤ} (he : -1022 ≤ e) (h1 : (2 : ℚ) ^ e ≤ a)
    (h2 : a < (2 : ℚ) ^ (e + 1)) : binade a = e := by
  unfold binade
  rw [log_eq_of_bounds h1 h2]
  exact max_eq_left he

theorem binade_eq_of_small {a : ℚ} (h0 : 0 < a) (h2 : a < (2 : ℚ) ^ (-1021 : ℤ)) :
    binade a = -1022 := by
  unfold binade
  apply max_eq_right
  have := (Int.lt_zpow_iff_log_lt (R := ℚ) (b := 2) (by norm_num) h0).1
    (by rw [Nat.cast_ofNat]; exact h2)
  omega

theorem binade_two_mul {a : ℚ} (h : (2 : ℚ) ^ (-1022 : ℤ) ≤ a) : binade (2 * a) = binade a + 1 := by
  have ha : 0 < a := lt_of_lt_of_le (by positivity) h
  have hlog : -1022 ≤ Int.log 2 a :=
    (Int.zpow_le_iff_le_log (R := ℚ) (b := 2) (by norm_num) ha).1
      (by rw [Nat.cast_ofNat]; exact h)
  have hb : binade a = Int.log 2 a := max_eq_left hlog
  have h1 : (2 : ℚ) ^ binade a ≤ a := by
    rw [hb]; simpa using Int.zpow_log_le_self (R := ℚ) (b := 2) (by norm_num) ha
  have h2 : a < (2 : ℚ) ^ (binade a + 1) := lt_zpow_binade
  apply binade_eq_of_bounds (by have := binade_ge a; omega)
  · rw [zpow_add_one₀ (by norm_num)]; linarith
  · rw [zpow_add_one₀ (by norm_num : (2 : ℚ) ≠ 0) (binade a + 1)]; linarith

theorem ulp_two_mul {a : ℚ} (h : (2 : ℚ) ^ (-1022 : ℤ) ≤ a) : ulp (2 * a) = 2 * ulp a := by
  unfold ulp
  rw [binade_two_mul h, show binade a + 1 - 52 = (binade a - 52) + 1 by ring,
    zpow_add_one₀ (by norm_num)]
  ring

theorem roundMag_two_mul {a : ℚ} (h : (2 : ℚ) ^ (-1022 : ℤ) ≤ a) :
    roundMag (2 * a) = 2 * roundMag a := by
  unfold roundMag
  rw [ulp_two_mul h]
  have hu := ulp_pos a
  have : 2 * a / (2 * ulp a) = a / ulp a := by
    field_simp
    ring
  rw [this]; ring

theorem roundMag_eq_self_of_int {a : ℚ} {m : ℤ} (h : a = (m : ℚ) * ulp a) : roundMag a = a := by
  have hu := ulp_pos a
  have : a / ulp a = (m : ℚ) := by
    rw [div_eq_iff hu.ne']; exact h
  unfold roundMag
  rw [this, roundHalfEven_intCast]
  exact h.symm

theorem roundMag_idem {a : ℚ} (ha : 0 ≤ a) : roundMag (roundMag a) = roundMag a := by
  rcases eq_or_lt_of_le ha with h0 | hpos
  · rw [← h0, roundMag_zero, roundMag_zero]
  · have hle := roundMag_le_zpow a
    have hnn := roundMag_nonneg ha
    have hu := ulp_pos a
    rcases eq_or_lt_of_le hle with htop | hlt
    · -- rounded up to the next power of two
      have hb : binade (roundMag a) = binade a + 1 := by
        apply binade_eq_of_bounds (by have := binade_ge a; omega)
        · rw [htop]
        · rw [htop]; exact zpow_lt_zpow_right₀ (by norm_num) (by omega)
      apply roundMag_eq_self_of_int (m := 2 ^ 52)
      have hul : ulp (roundMag a) = 2 * ulp a := by
        unfold ulp
        rw [hb, show binade a + 1 - 52 = (binade a - 52) + 1 by ring,
          zpow_add_one₀ (by norm_num)]
        ring
      rw [hul, htop, zpow_succ_eq_ulp]
      push_cast; ring
    · rcases eq_or_lt_of_le hnn with hz | hrpos
      · rw [← hz, roundMag_zero]
      · have hb : binade (roundMag a) = binade a := by
          rcases eq_or_lt_of_le (binade_ge a) with he | he
          · rw [← he] at hlt ⊢
            exact binade_eq_of_small hrpos (by
              have e : (-1022 : ℤ) + 1 = -1021 := by norm_num
              rw [e] at hlt; exact hlt)
          · exact binade_eq_of_bounds (binade_ge a)
              (zpow_le_roundMag (zpow_binade_le hpos he)) hlt
        apply roundMag_eq_self_of_int (m := roundHalfEven (a / ulp a))
        have hul : ulp (roundMag a) = ulp a := by unfold ulp; rw [hb]
        rw [hul]; rfl

/-! ### Order and rounding on `double` -/

theorem Double.lt_irrefl (x : Double) : x.lt x = false := by
  cases x with
  | nan => rfl
  | inf s => cases s <;> rfl
  | finite a => simp [Double.lt]

theorem Double.eq_self {x : Double} (h : x ≠ .nan) : x.eq x = true := by
  cases x with
  | nan => exact absurd rfl h
  | inf s => cases s <;> rfl
  | finite a => simp [Double.eq]

theorem roundFinite_zero : roundFinite 0 = 0 := by
  unfold roundFinite
  simp [roundMag_zero]

theorem roundToDouble_ne_nan (q : ℚ) : roundToDouble q ≠ .nan := by
  unfold roundToDouble
  split_ifs <;> simp

theorem roundToDouble_zero : roundToDouble 0 = .finite 0 := by
  unfold roundToDouble
  rw [roundFinite_zero]
  norm_num

theorem roundToDouble_mono {x y : ℚ} (h : x ≤ y) :
    (roundToDouble x).le (roundToDouble y) = true := by
  have hr := roundFinite_mono h
  have hpos : (0 : ℚ) < (2 : ℚ) ^ (1024 : ℕ) := by positivity
  unfold roundToDouble
  split_ifs <;> simp only [Double.le, Bool.not_true, Bool.not_false, decide_eq_true_eq] <;>
    first | rfl | linarith

theorem Double.sub_finite_mono {a b : Double} (k : ℚ) (h : a.le b = true) :
    (a.sub (.finite k)).le (b.sub (.finite k)) = true := by
  cases a with
  | nan => simp [Double.le] at h
  | inf s =>
    cases b with
    | nan => cases s <;> simp [Double.le] at h
    | inf s1 => cases s <;> cases s1 <;> simp_all [Double.le, Double.sub]
    | finite q =>
      cases s
      · simp [Double.le] at h
      · have := roundToDouble_ne_nan (q - k)
        simp only [Double.sub]
        cases hq : roundToDouble (q - k) with
        | nan => exact absurd hq this
        | inf s2 => rfl
        | finite r => rfl
  | finite p =>
    cases b with
    | nan => simp [Double.le] at h
    | inf s1 =>
      cases s1
      · have := roundToDouble_ne_nan (p - k)
        simp only [Double.sub]
        cases hq : roundToDouble (p - k) with
        | nan => exact absurd hq this
        | inf s2 => cases s2 <;> rfl
        | finite r => rfl
      · simp [Double.le] at h
    | finite q =>
      simp only [Double.le, decide_eq_true_eq] at h
      exact roundToDouble_mono (by linarith)

theorem Double.div_finite_mono {a b : Double} {k : ℚ} (hk : 0 < k) (h : a.le b = true) :
    (a.div (.finite k)).le (b.div (.finite k)) = true := by
  have hk0 : ¬ k < 0 := not_lt.2 hk.le
  have hk1 : k ≠ 0 := hk.ne'
  have hd : decide (k < 0) = false := decide_eq_false hk0
  cases a with
  | nan => simp [Double.le] at h
  | inf s =>
    cases b with
    | nan => cases s <;> simp [Double.le] at h
    | inf s1 => cases s <;> cases s1 <;> simp [Double.le, Double.div, hd] at h ⊢
    | finite q =>
      cases s
      · simp [Double.le] at h
      · have := roundToDouble_ne_nan (q / k)
        simp only [Double.div, hk0, hk1, decide_False, Bool.xor_false, if_false]
        cases hq : roundToDouble (q / k) with
        | nan => exact absurd hq this
        | inf s2 => rfl
        | finite r => rfl
  | finite p =>
    cases b with
    | nan => simp [Double.le] at h
    | inf s1 =>
      cases s1
      · have := roundToDouble_ne_nan (p / k)
        simp only [Double.div, hk0, hk1, decide_False, Bool.xor_false, if_false]
        cases hq : roundToDouble (p / k) with
        | nan => exact absurd hq this
        | inf s2 => cases s2 <;> rfl
        | finite r => rfl
      · simp [Double.le] at h
    | finite q =>
      simp only [Double.le, decide_eq_true_eq] at h
      simp only [Double.div, hk1, if_false]
      exact roundToDouble_mono (div_le_div_of_nonneg_right h hk.le)

theorem Double.mul_finite_mono {a b : Double} {t : ℚ} (ht : 0 < t) (h : a.le b = true) :
    (a.mul (.finite t)).le (b.mul (.finite t)) = true := by
  have ht0 : ¬ t < 0 := not_lt.2 ht.le
  have ht1 : t ≠ 0 := ht.ne'
  have hd : decide (t < 0) = false := decide_eq_false ht0
  cases a with
  | nan => simp [Double.le] at h
  | inf s =>
    cases b with
    | nan => cases s <;> simp [Double.le] at h
    | inf s1 => cases s <;> cases s1 <;> simp [Double.le, Double.mul, hd, ht1] at h ⊢
    | finite q =>
      cases s
      · simp [Double.le] at h
      · have := roundToDouble_ne_nan (q * t)
        simp only [Double.mul, ht1, hd, Bool.xor_false, if_false]
        cases hq : roundToDouble (q * t) with
        | nan => exact absurd hq this
        | inf s2 => rfl
        | finite r => rfl
  | finite p =>
    cases b with
    | nan => simp [Double.le] at h
    | inf s1 =>
      cases s1
      · have := roundToDouble_ne_nan (p * t)
        simp only [Double.mul, ht0, ht1, decide_False, Bool.xor_false, if_false]
        cases hq : roundToDouble (p * t) with
        | nan => exact absurd hq this
        | inf s2 => cases s2 <;> rfl
        | finite r => rfl
      · simp [Double.le] at h
    | finite q =>
      simp only [Double.le, decide_eq_true_eq] at h
      simp only [Double.mul]
      exact roundToDouble_mono (mul_le_mul_of_nonneg_right h ht.le)

/-! ### Values computed exactly -/

theorem roundMag_eq_self {a : ℚ} (e m : ℤ) (hb : binade a = e)
    (h : a = (m : ℚ) * (2 : ℚ) ^ (e - 52)) : roundMag a = a := by
  apply roundMag_eq_self_of_int (m := m)
  unfold ulp
  rw [hb]; exact h

theorem roundToDouble_eq {q : ℚ} (hq : roundFinite q = q) (h1 : -(2 : ℚ) ^ (1024 : ℕ) < q)
    (h2 : q < (2 : ℚ) ^ (1024 : ℕ)) : roundToDouble q = .finite q := by
  unfold roundToDouble
  rw [hq, if_neg (not_le.2 h1), if_neg (not_le.2 h2)]

theorem roundMag_6900 : roundMag 6900 = 6900 :=
  roundMag_eq_self 12 (6900 * 2 ^ 40) (binade_eq_of_bounds (by norm_num) (by norm_num)
    (by norm_num)) (by norm_num)

theorem roundMag_near_6900 : roundMag (6900 - 1 / 2 ^ 44) = 6900 := by
  have hb : binade (6900 - 1 / 2 ^ 44 : ℚ) = 12 :=
    binade_eq_of_bounds (by norm_num) (by norm_num) (by norm_num)
  have hu : ulp (6900 - 1 / 2 ^ 44 : ℚ) = 1 / 2 ^ 40 := by
    unfold ulp; rw [hb]; norm_num
  unfold roundMag
  rw [hu, roundHalfEven_eq_of_near (n := 6900 * 2 ^ 40) (by norm_num) (by norm_num)]
  norm_num

/-- In `double`, `0.0 - 6900.0` and `2^-44 - 6900.0` are the same value. -/
theorem sub_6900_merges :
    (Double.finite 0).sub (.finite 6900) = (Double.finite (1 / 2 ^ 44)).sub (.finite 6900) := by
  have e1 : roundFinite (0 - 6900) = -6900 := by
    unfold roundFinite
    rw [if_pos (by norm_num)]
    norm_num [roundMag_6900]
  have e2 : roundFinite (1 / 2 ^ 44 - 6900) = -6900 := by
    unfold roundFinite
    rw [if_pos (by norm_num)]
    have : -(1 / 2 ^ 44 - 6900 : ℚ) = 6900 - 1 / 2 ^ 44 := by ring
    rw [this, roundMag_near_6900]
  simp only [Double.sub, roundToDouble, e1, e2]

theorem Double.mul_zero_lt (p q : Double) :
    (p.mul (.finite 0)).lt (q.mul (.finite 0)) = false := by
  have hp : p.mul (.finite 0) = .nan ∨ p.mul (.finite 0) = .finite 0 := by
    cases p with
    | nan => left; rfl
    | inf s => left; simp [Double.mul]
    | finite a => right; simp [Double.mul, roundToDouble_zero]
  have hq : q.mul (.finite 0) = .nan ∨ q.mul (.finite 0) = .finite 0 := by
    cases q with
    | nan => left; rfl
    | inf s => left; simp [Double.mul]
    | finite a => right; simp [Double.mul, roundToDouble_zero]
  rcases hp with hp | hp <;> rcases hq with hq | hq <;> rw [hp, hq] <;> simp [Double.lt]

/-! ### Doubling -/

theorem roundFinite_of_nonneg {q : ℚ} (h : 0 ≤ q) : roundFinite q = roundMag q := by
  unfold roundFinite; rw [if_neg (not_lt.2 h)]

theorem roundFinite_of_neg {q : ℚ} (h : q < 0) : roundFinite q = -roundMag (-q) := by
  unfold roundFinite; rw [if_pos h]

theorem roundFinite_neg (q : ℚ) : roundFinite (-q) = -roundFinite q := by
  rcases lt_trichotomy q 0 with h | h | h
  · rw [roundFinite_of_neg h, roundFinite_of_nonneg (by linarith), neg_neg]
  · rw [h, neg_zero, roundFinite_zero, neg_zero]
  · rw [roundFinite_of_neg (by linarith : -q < 0), roundFinite_of_nonneg h.le, neg_neg]

theorem zpow_min_le_roundMag {a : ℚ} (h : (2 : ℚ) ^ (-1022 : ℤ) ≤ a) :
    (2 : ℚ) ^ (-1022 : ℤ) ≤ roundMag a := by
  have ha : 0 < a := lt_of_lt_of_le (by positivity) h
  have hlog : -1022 ≤ Int.log 2 a :=
    (Int.zpow_le_iff_le_log (R := ℚ) (b := 2) (by norm_num) ha).1
      (by rw [Nat.cast_ofNat]; exact h)
  have hb : binade a = Int.log 2 a := max_eq_left hlog
  have h1 : (2 : ℚ) ^ binade a ≤ a := by
    rw [hb]; simpa using Int.zpow_log_le_self (R := ℚ) (b := 2) (by norm_num) ha
  have h2 := zpow_le_roundMag h1
  have h3 : (2 : ℚ) ^ (-1022 : ℤ) ≤ (2 : ℚ) ^ binade a :=
    zpow_le_zpow_right₀ (by norm_num) (binade_ge a)
  linarith

theorem roundMag_two_mul_of_rep {t : ℚ} (ht0 : 0 ≤ t) (ht : roundMag t = t) :
    roundMag (2 * t) = 2 * t := by
  rcases le_or_lt ((2 : ℚ) ^ (-1022 : ℤ)) t with h | h
  · rw [roundMag_two_mul h, ht]
  · rcases eq_or_lt_of_le ht0 with h0 | hpos
    · rw [← h0, mul_zero, roundMag_zero]
    · have hlt : (2 : ℚ) ^ (-1022 : ℤ) < (2 : ℚ) ^ (-1021 : ℤ) :=
        zpow_lt_zpow_right₀ (by norm_num) (by norm_num)
      have hb1 : binade t = -1022 := binade_eq_of_small hpos (by linarith)
      have hb2 : binade (2 * t) = -1022 := by
        apply binade_eq_of_small (by linarith)
        have : (2 : ℚ) ^ (-1021 : ℤ) = 2 * (2 : ℚ) ^ (-1022 : ℤ) := by
          rw [show (-1021 : ℤ) = -1022 + 1 by norm_num, zpow_add_one₀ (by norm_num)]; ring
        rw [this]; linarith
      have hu : ulp (2 * t) = ulp t := by unfold ulp; rw [hb1, hb2]
      apply roundMag_eq_self_of_int (m := 2 * roundHalfEven (t / ulp t))
      rw [hu]
      have : t = (roundHalfEven (t / ulp t) : ℚ) * ulp t := ht.symm
      push_cast
      linarith

theorem roundFinite_two_mul_of_rep {t : ℚ} (ht : roundFinite t = t) :
    roundFinite (2 * t) = 2 * t := by
  rcases lt_or_le t 0 with h | h
  · rw [roundFinite_of_neg h] at ht
    rw [roundFinite_of_neg (by linarith)]
    have e : -(2 * t) = 2 * (-t) := by ring
    rw [e, roundMag_two_mul_of_rep (by linarith) (by linarith)]
    ring
  · rw [roundFinite_of_nonneg h] at ht
    rw [roundFinite_of_nonneg (by linarith), roundMag_two_mul_of_rep h ht]

theorem roundFinite_idem (x : ℚ) : roundFinite (roundFinite x) = roundFinite x := by
  rcases lt_or_le x 0 with h | h
  · rw [roundFinite_of_neg h, roundFinite_neg,
      roundFinite_of_nonneg (roundMag_nonneg (by linarith)), roundMag_idem (by linarith)]
  · rw [roundFinite_of_nonneg h, roundFinite_of_nonneg (roundMag_nonneg h), roundMag_idem h]

theorem roundFinite_two_mul {x : ℚ} (h : x = 0 ∨ (2 : ℚ) ^ (-1022 : ℤ) ≤ |x|) :
    roundFinite (2 * x) = 2 * roundFinite x := by
  rcases h with h | h
  · rw [h, mul_zero, roundFinite_zero, mul_zero]
  · rcases lt_or_le x 0 with hx | hx
    · rw [abs_of_neg hx] at h
      rw [roundFinite_of_neg hx, roundFinite_of_neg (by linarith)]
      have e : -(2 * x) = 2 * (-x) := by ring
      rw [e, roundMag_two_mul h]; ring
    · rw [abs_of_nonneg hx] at h
      rw [roundFinite_of_nonneg hx, roundFinite_of_nonneg (by linarith), roundMag_two_mul h]

/-- Doubling a rounded product: rounding `2 * x` gives what doubling the
rounded `x` gives, overflow included. -/
theorem roundToDouble_two_mul {x : ℚ} (h : x = 0 ∨ (2 : ℚ) ^ (-1022 : ℤ) ≤ |x|) :
    roundToDouble (2 * x) = (Double.finite 2).mul (roundToDouble x) := by
  have h2 := roundFinite_two_mul h
  have hrep := roundFinite_two_mul_of_rep (roundFinite_idem x)
  have hpos : (0 : ℚ) < (2 : ℚ) ^ (1024 : ℕ) := by positivity
  unfold roundToDouble
  rw [h2]
  by_cases c1 : roundFinite x ≤ -(2 : ℚ) ^ (1024 : ℕ)
  · rw [if_pos c1, if_pos (by linarith)]
    simp [Double.mul]
  · rw [if_neg c1]
    by_cases c2 : (2 : ℚ) ^ (1024 : ℕ) ≤ roundFinite x
    · rw [if_pos c2, if_neg (by linarith), if_pos (by linarith)]
      simp [Double.mul]
    · rw [if_neg c2]
      simp only [Double.mul, roundToDouble, hrep]

theorem roundFinite_rep {q : ℚ} (e m : ℤ) (he : -1022 ≤ e) (h1 : (2 : ℚ) ^ e ≤ q)
    (h2 : q < (2 : ℚ) ^ (e + 1)) (h : q = (m : ℚ) * (2 : ℚ) ^ (e - 52)) : roundFinite q = q := by
  have hq : 0 ≤ q := le_trans (by positivity) h1
  rw [roundFinite_of_nonneg hq]
  exact roundMag_eq_self e m (binade_eq_of_bounds he h1 h2) h

theorem roundFinite_1200 : roundFinite 1200 = 1200 :=
  roundFinite_rep 10 (1200 * 2 ^ 42) (by norm_num) (by norm_num) (by norm_num) (by norm_num)

theorem roundFinite_one : roundFinite 1 = 1 :=
  roundFinite_rep 0 (2 ^ 52) (by norm_num) (by norm_num) (by norm_num) (by norm_num)

theorem roundFinite_two : roundFinite 2 = 2 :=
  roundFinite_rep 1 (2 ^ 52) (by norm_num) (by norm_num) (by norm_num) (by norm_num)

theorem roundFinite_440 : roundFinite 440 = 440 :=
  roundFinite_rep 8 (440 * 2 ^ 44) (by norm_num) (by norm_num) (by norm_num) (by norm_num)

theorem minPositive_pos : 0 < minPositive := by
  unfold minPositive; positivity

theorem roundFinite_minPositive : roundFinite minPositive = minPositive := by
  rw [roundFinite_of_nonneg minPositive_pos.le]
  exact roundMag_eq_self (-1022) 1
    (binade_eq_of_small minPositive_pos (by unfold minPositive; norm_num))
    (by unfold minPositive; norm_num)

theorem roundHalfEven_half : roundHalfEven (1 / 2) = 0 := by
  have hf : ⌊(1 / 2 : ℚ)⌋ = 0 := by rw [Int.floor_eq_iff]; norm_num
  unfold roundHalfEven
  rw [hf]; norm_num

theorem roundFinite_half_minPositive : roundFinite (1 / 2 * minPositive) = 0 := by
  have hpos : 0 < 1 / 2 * minPositive := by have := minPositive_pos; positivity
  rw [roundFinite_of_nonneg hpos.le]
  have hb : binade (1 / 2 * minPositive) = -1022 :=
    binade_eq_of_small hpos (by unfold minPositive; norm_num)
  have hu : ulp (1 / 2 * minPositive) = minPositive := by
    unfold ulp; rw [hb]; unfold minPositive; norm_num
  unfold roundMag
  have : 1 / 2 * minPositive / minPositive = 1 / 2 := by
    have := minPositive_pos.ne'
    field_simp
    ring
  rw [hu, this, roundHalfEven_half]; norm_num

theorem lt_two_pow_1024 : (65536 : ℚ) < (2 : ℚ) ^ (1024 : ℕ) := by
  have h : (2 : ℚ) ^ (16 : ℕ) < (2 : ℚ) ^ (1024 : ℕ) :=
    pow_lt_pow_right₀ (by norm_num) (by norm_num)
  have e : (2 : ℚ) ^ (16 : ℕ) = 65536 := by norm_num
  rw [e] at h
  exact h

theorem roundToDouble_eq_of_abs_lt {q : ℚ} (hq : roundFinite q = q)
    (h : |q| < (2 : ℚ) ^ (1024 : ℕ)) : roundToDouble q = .finite q := by
  have hb := abs_lt.1 h
  exact roundToDouble_eq hq hb.1 hb.2

theorem roundToDouble_eq_of_small {q : ℚ} (hq : roundFinite q = q) (h : |q| < 65536) :
    roundToDouble q = .finite q :=
  roundToDouble_eq_of_abs_lt hq (h.trans lt_two_pow_1024)

theorem mul_two_finite {t : ℚ} (ht : roundFinite t = t) (hmax : |2 * t| < (2 : ℚ) ^ (1024 : ℕ)) :
    (Double.finite 2).mul (.finite t) = .finite (2 * t) :=
  roundToDouble_eq_of_abs_lt (roundFinite_two_mul_of_rep ht) hmax

theorem mul_one_finite {t : ℚ} (ht : roundFinite t = t) (hmax : |2 * t| < (2 : ℚ) ^ (1024 : ℕ)) :
    (Double.finite 1).mul (.finite t) = .finite t := by
  have h : |t| < (2 : ℚ) ^ (1024 : ℕ) := by
    rw [abs_mul, abs_two] at hmax
    have := abs_nonneg t
    linarith
  show roundToDouble (1 * t) = .finite t
  rw [one_mul]
  exact roundToDouble_eq_of_abs_lt ht h

theorem exponent_6900 :
    ((Double.finite 6900).sub (.finite 6900)).div (.finite 1200) = .finite 0 := by
  simp [Double.sub, Double.div, roundToDouble_zero]

theorem Double.mul_finite (a b : ℚ) :
    (Double.finite a).mul (.finite b) = roundToDouble (a * b) := rfl

theorem Double.sub_finite (a b : ℚ) :
    (Double.finite a).sub (.finite b) = roundToDouble (a - b) := rfl

theorem Double.div_finite (a : ℚ) {b : ℚ} (hb : b ≠ 0) :
    (Double.finite a).div (.finite b) = roundToDouble (a / b) := by
  simp only [Double.div, hb, if_false]

theorem exponent_5700 :
    ((Double.finite 5700).sub (.finite 6900)).div (.finite 1200) = .finite (-1) := by
  have e1 : roundToDouble (5700 - 6900) = .finite (-1200) := by
    have : (5700 - 6900 : ℚ) = -1200 := by norm_num
    rw [this]
    exact roundToDouble_eq_of_small (by rw [roundFinite_neg, roundFinite_1200]) (by norm_num)
  have e2 : roundToDouble (-1200 / 1200) = .finite (-1) := by
    have : (-1200 / 1200 : ℚ) = -1 := by norm_num
    rw [this]
    exact roundToDouble_eq_of_small (by rw [roundFinite_neg, roundFinite_one]) (by norm_num)
  rw [Double.sub_finite, e1, Double.div_finite _ (by norm_num), e2]

theorem minPositive_le_one : minPositive ≤ 1 := by
  unfold minPositive
  rw [div_le_one (by positivity)]; exact one_le_pow₀ (by norm_num)

theorem minPositive_lt : |2 * minPositive| < (2 : ℚ) ^ (1024 : ℕ) := by
  have h0 := minPositive_pos
  have h1 := minPositive_le_one
  rw [abs_of_pos (by linarith)]
  have := lt_two_pow_1024
  linarith

/-- In `double`, half of the smallest positive value rounds to zero. -/
theorem half_mul_minPositive :
    (Double.finite (1 / 2)).mul (.finite minPositive) = .finite 0 := by
  rw [Double.mul_finite]
  unfold roundToDouble
  rw [roundFinite_half_minPositive]
  have hpos : (0 : ℚ) < (2 : ℚ) ^ (1024 : ℕ) := by positivity
  rw [if_neg (by linarith), if_neg (by linarith)]

theorem half_mul_two_minPositive :
    (Double.finite (1 / 2)).mul (.finite (2 * minPositive)) = .finite minPositive := by
  have : 1 / 2 * (2 * minPositive) = minPositive := by ring
  rw [Double.mul_finite, this]
  have h0 := minPositive_pos
  have h1 := minPositive_le_one
  exact roundToDouble_eq_of_small roundFinite_minPositive
    (by rw [abs_of_pos h0]; linarith)

/-! ### The sample library -/

theorem roundToDouble_nonneg {q : ℚ} (h : 0 ≤ q) :
    (Double.finite 0).le (roundToDouble q) = true := by
  have := roundToDouble_mono h
  rwa [roundToDouble_zero] at this

theorem le_inf_of_ne_nan {x : Double} (h : x ≠ .nan) : x.le (.inf false) = true := by
  cases x with
  | nan => exact absurd rfl h
  | inf s => cases s <;> rfl
  | finite a => rfl

theorem sampleLibm_pow_finite (b q : ℚ) :
    sampleLibm.pow (.finite b) (.finite q) = roundToDouble (b ^ ⌊q⌋) := by
  simp only [sampleLibm]

theorem sampleLibm_pow_neg_inf (b : ℚ) :
    sampleLibm.pow (.finite b) (.inf true) = .finite 0 := by
  simp only [sampleLibm]

theorem sampleLibm_pow_inf (b : ℚ) :
    sampleLibm.pow (.finite b) (.inf false) = .inf false := by
  simp only [sampleLibm]

theorem sampleLibm_powMonotone : sampleLibm.PowMonotone := by
  intro y1 y2 h
  cases y1 with
  | nan => simp [Double.le] at h
  | inf s =>
    cases s
    · cases y2 with
      | nan => simp [Double.le] at h
      | inf s1 =>
        cases s1
        · rfl
        · simp [Double.le] at h
      | finite q => simp [Double.le] at h
    · cases y2 with
      | nan => simp [Double.le] at h
      | inf s1 => cases s1 <;> rfl
      | finite q =>
        rw [sampleLibm_pow_neg_inf, sampleLibm_pow_finite]
        exact roundToDouble_nonneg (by positivity)
  | finite p =>
    cases y2 with
    | nan => simp [Double.le] at h
    | inf s1 =>
      cases s1
      · rw [sampleLibm_pow_inf, sampleLibm_pow_finite]
        exact le_inf_of_ne_nan (roundToDouble_ne_nan _)
      · simp [Double.le] at h
    | finite q =>
      simp only [Double.le, decide_eq_true_eq] at h
      rw [sampleLibm_pow_finite, sampleLibm_pow_finite]
      exact roundToDouble_mono (zpow_le_zpow_right₀ (by norm_num) (Int.floor_mono h))

theorem abs_880_lt : |(2 * 440 : ℚ)| < (2 : ℚ) ^ (1024 : ℕ) := by
  have := lt_two_pow_1024
  rw [abs_of_pos (by norm_num)]
  linarith

theorem zpow_min_le_880 : (2 : ℚ) ^ (-1022 : ℤ) ≤ |(2 * 440 : ℚ)| := by
  rw [abs_of_pos (by norm_num)]
  have h : (2 : ℚ) ^ (-1022 : ℤ) ≤ (2 : ℚ) ^ (0 : ℤ) :=
    zpow_le_zpow_right₀ (by norm_num) (by norm_num)
  rw [zpow_zero] at h
  linarith

theorem sampleLibm_pow_8100 :
    sampleLibm.pow (.finite 2) (((Double.finite 8100).sub (.finite 6900)).div (.finite 1200))
      = .finite 2 := by
  have e1 : roundToDouble (8100 - 6900) = .finite 1200 := by
    have : (8100 - 6900 : ℚ) = 1200 := by norm_num
    rw [this]
    exact roundToDouble_eq_of_small roundFinite_1200 (by norm_num)
  have e2 : roundToDouble (1200 / 1200) = .finite 1 := by
    have : (1200 / 1200 : ℚ) = 1 := by norm_num
    rw [this]
    exact roundToDouble_eq_of_small roundFinite_one (by norm_num)
  rw [Double.sub_finite, e1, Double.div_finite _ (by norm_num), e2]
  rw [sampleLibm_pow_finite]
  have : (2 : ℚ) ^ ⌊(1 : ℚ)⌋ = 2 := by simp
  rw [this]
  exact roundToDouble_eq_of_small roundFinite_two (by norm_num)

/-! ## Claims on `Zerberus` -/

namespace Zerberus

variable {Channel : Type}

theorem ct2hz_setMasterTuning (M : Libm) (z : Zerberus Channel) (val c : Double) :
    (z.setMasterTuning val).ct2hz M c
      = (M.pow (.finite 2) ((c.sub (.finite 6900)).div (.finite 1200))).mul val := rfl

/-- C4 (as stated) fails in `double` arithmetic, whatever `pow` answers. With
master tuning `0.0`, which `setMasterTuning` accepts, `ct2hz(0.0)` and
`ct2hz(1200.0)` are both zero or NaN. With master tuning `440.0`, the pitches
`0.0` and `2^-44` give the same exponent, `0.0 - 6900.0` and `2^-44 - 6900.0`
being the same `double`, so `ct2hz` answers the same value for both. -/
theorem ct2hz_not_strictly_monotone :
    ((Double.finite 0).lt (.finite 1200) = true ∧
      ¬ ∃ M : Libm,
        (((fresh (fun _ => (0 : Nat))).setMasterTuning (.finite 0)).ct2hz M (.finite 0)).lt
          (((fresh (fun _ => (0 : Nat))).setMasterTuning (.finite 0)).ct2hz M (.finite 1200))
          = true) ∧
    ((Double.finite 0).lt (.finite (1 / 2 ^ 44)) = true ∧
      ¬ ∃ M : Libm,
        (((fresh (fun _ => (0 : Nat))).setMasterTuning (.finite 440)).ct2hz M (.finite 0)).lt
          (((fresh (fun _ => (0 : Nat))).setMasterTuning (.finite 440)).ct2hz M
            (.finite (1 / 2 ^ 44))) = true) := by
  refine ⟨⟨by simp [Double.lt], ?_⟩, ⟨by simp [Double.lt], ?_⟩⟩
  · rintro ⟨M, h⟩
    rw [ct2hz_setMasterTuning, ct2hz_setMasterTuning, Double.mul_zero_lt] at h
    exact absurd h (by decide)
  · rintro ⟨M, h⟩
    rw [ct2hz_setMasterTuning, ct2hz_setMasterTuning, sub_6900_merges, Double.lt_irrefl] at h
    exact absurd h (by decide)

/-- C4 (amended): in `double` arithmetic, for every finite master tuning
`t > 0` and every pair of pitch values `c1 <= c2` (neither is NaN),
`ct2hz(c1) <= ct2hz(c2)` when both are computed with the same tuning, provided
the library function `pow(2.0, ·)` never decreases. -/
theorem ct2hz_monotone (M : Libm) (hM : M.PowMonotone) (z : Zerberus Channel) (t : ℚ)
    (ht : 0 < t) (c1 c2 : Double) (h : c1.le c2 = true) :
    ((z.setMasterTuning (.finite t)).ct2hz M c1).le
      ((z.setMasterTuning (.finite t)).ct2hz M c2) = true := by
  have h1 := Double.sub_finite_mono 6900 h
  have h2 := Double.div_finite_mono (k := 1200) (by norm_num) h1
  rw [ct2hz_setMasterTuning, ct2hz_setMasterTuning]
  exact Double.mul_finite_mono ht (hM _ _ h2)

/-- Witness of C4 (amended): the sample library, concert pitch `440.0` and the
pitches `6900.0` and `8100.0`. -/
theorem ct2hz_monotone_witness :
    sampleLibm.PowMonotone ∧ (0 : ℚ) < 440 ∧ (Double.finite 6900).le (.finite 8100) = true ∧
    (((fresh (fun _ => (0 : Nat))).setMasterTuning (.finite 440)).ct2hz sampleLibm
        (.finite 6900)).le
      (((fresh (fun _ => (0 : Nat))).setMasterTuning (.finite 440)).ct2hz sampleLibm
        (.finite 8100)) = true :=
  ⟨sampleLibm_powMonotone, by norm_num, by norm_num [Double.le],
    ct2hz_monotone sampleLibm sampleLibm_powMonotone (fresh (fun _ => (0 : Nat))) 440
      (by norm_num) (.finite 6900) (.finite 8100) (by norm_num [Double.le])⟩

/-- C5 (as stated) fails in `double` arithmetic for every library whose
`pow(2.0, -1.0)` is `0.5`: with the smallest positive `double` as tuning `t`
and the pitch `5700.0`, `ct2hz` after `setMasterTuning(2 * t)` is `t`, while
`ct2hz` after `setMasterTuning(t)` is `0.5 * t` rounded, which is zero, and
twice zero is zero. -/
theorem ct2hz_doubling_fails :
    roundFinite minPositive = minPositive ∧
    ¬ ∃ M : Libm, M.pow (.finite 2) (.finite (-1)) = .finite (1 / 2) ∧
      (((fresh (fun _ => (0 : Nat))).setMasterTuning
          ((Double.finite 2).mul (.finite minPositive))).ct2hz M (.finite 5700)).eq
        ((Double.finite 2).mul
          (((fresh (fun _ => (0 : Nat))).setMasterTuning (.finite minPositive)).ct2hz M
            (.finite 5700))) = true := by
  refine ⟨roundFinite_minPositive, ?_⟩
  rintro ⟨M, hpow, h⟩
  rw [ct2hz_setMasterTuning, ct2hz_setMasterTuning, exponent_5700, hpow,
    mul_two_finite roundFinite_minPositive minPositive_lt,
    half_mul_minPositive, half_mul_two_minPositive, Double.mul_finite, mul_zero,
    roundToDouble_zero] at h
  have hne : ¬ (minPositive = 0) := minPositive_pos.ne'
  simp only [Double.eq, hne, decide_False] at h
  exact absurd h (by decide)

/-- C5 (amended): in `double` arithmetic, for every pitch value `c` and every
`double` tuning `t` whose double `2 * t` is finite: if `pow(2.0, (c - 6900.0) / 1200.0)`
answers a finite value `p` and the exact product `p * t` is zero or at least
`2^-1022` in magnitude (it does not underflow), then `ct2hz(c)` after
`setMasterTuning(2 * t)` equals 2 times `ct2hz(c)` after `setMasterTuning(t)`;
`ct2hz(c)` is the `double` product `pow(2.0, (c - 6900.0) / 1200.0) * masterTuning()`;
and when `pow(2.0, 0.0)` is `1.0`, `ct2hz(6900.0)` equals the master tuning `t`. -/
theorem ct2hz_doubling (M : Libm) (z : Zerberus Channel) (c : Double) (t p : ℚ)
    (ht : roundFinite t = t) (hmax : |2 * t| < (2 : ℚ) ^ (1024 : ℕ))
    (hp : M.pow (.finite 2) ((c.sub (.finite 6900)).div (.finite 1200)) = .finite p)
    (hx : p * t = 0 ∨ (2 : ℚ) ^ (-1022 : ℤ) ≤ |p * t|) :
    ((z.setMasterTuning ((Double.finite 2).mul (.finite t))).ct2hz M c).eq
      ((Double.finite 2).mul ((z.setMasterTuning (.finite t)).ct2hz M c)) = true ∧
    z.ct2hz M c
      = (M.pow (.finite 2) ((c.sub (.finite 6900)).div (.finite 1200))).mul z.masterTuning ∧
    (M.pow (.finite 2) (.finite 0) = .finite 1 →
      ((z.setMasterTuning (.finite t)).ct2hz M (.finite 6900)).eq
        (z.setMasterTuning (.finite t)).masterTuning = true) := by
  refine ⟨?_, rfl, ?_⟩
  · rw [ct2hz_setMasterTuning, ct2hz_setMasterTuning, hp, mul_two_finite ht hmax,
      Double.mul_finite, Double.mul_finite, ← roundToDouble_two_mul hx,
      show p * (2 * t) = 2 * (p * t) by ring]
    exact Double.eq_self (roundToDouble_ne_nan _)
  · intro hpow
    rw [ct2hz_setMasterTuning, exponent_6900, hpow, mul_one_finite ht hmax]
    show (Double.finite t).eq (Double.finite t) = true
    simp [Double.eq]

/-- Witness of C5 (amended): the sample library, the pitch `8100.0` (one octave
above the reference, `pow` answers `2.0`) and the tuning `440.0`. -/
theorem ct2hz_doubling_witness :
    roundFinite 440 = 440 ∧ |(2 * 440 : ℚ)| < (2 : ℚ) ^ (1024 : ℕ) ∧
    sampleLibm.pow (.finite 2) (((Double.finite 8100).sub (.finite 6900)).div (.finite 1200))
      = .finite 2 ∧
    ((2 * 440 : ℚ) = 0 ∨ (2 : ℚ) ^ (-1022 : ℤ) ≤ |(2 * 440 : ℚ)|) ∧
    (((fresh (fun _ => (0 : Nat))).setMasterTuning
        ((Double.finite 2).mul (.finite 440))).ct2hz sampleLibm (.finite 8100)).eq
      ((Double.finite 2).mul
        (((fresh (fun _ => (0 : Nat))).setMasterTuning (.finite 440)).ct2hz sampleLibm
          (.finite 8100))) = true :=
  ⟨roundFinite_440, abs_880_lt, sampleLibm_pow_8100, Or.inr zpow_min_le_880,
    (ct2hz_doubling sampleLibm (fresh (fun _ => (0 : Nat))) (.finite 8100) 440 2
      roundFinite_440 abs_880_lt sampleLibm_pow_8100 (Or.inr zpow_min_le_880)).1⟩

/-- C7 (as stated) fails: `channel(64)` and `channel(-1)` are not rejected (the
call is not aborted and no check is made), they read `_channel[]` out of
bounds. -/
theorem channel_out_of_range_not_rejected :
    (fresh (fun _ => (0 : Nat))).channel 64 = .outOfBounds ∧
    (fresh (fun _ => (0 : Nat))).channel (-1) = .outOfBounds ∧
    ¬ ∃ s, (fresh (fun _ => (0 : Nat))).channel 64 = .aborted s := by
  refine ⟨?_, ?_, ?_⟩
  · simp [channel, MAX_CHANNEL]
  · simp [channel, MAX_CHANNEL]
  · simp [channel, MAX_CHANNEL]

/-- C7 (amended): for every index `n` in `[0, MAX_CHANNEL)`, `channel(n)`
returns the channel stored in slot `n` and leaves the engine unchanged; for
every other `n` the function makes no check and reads `_channel[n]` out of
bounds. -/
theorem channel_lookup (z : Zerberus Channel) (n : Int) :
    ((0 ≤ n ∧ n < MAX_CHANNEL) → z.channel n = .ok z (z._channel n)) ∧
    (¬ (0 ≤ n ∧ n < MAX_CHANNEL) → z.channel n = .outOfBounds) := by
  constructor
  · intro h; simp only [channel, h, and_self, if_true]
  · intro h; simp only [channel, h, if_false]

/-- Witness of C7 (amended): slot 63 of an engine whose slot `i` holds `i`. -/
theorem channel_lookup_witness :
    ((0 : Int) ≤ 63 ∧ (63 : Int) < MAX_CHANNEL) ∧
    (fresh (fun i => i)).channel 63 = .ok (fresh (fun i => i)) 63 :=
  ⟨by decide, (channel_lookup (fresh (fun i => i)) 63).1 (by decide)⟩

end Zerberus

/-! ## Claims on `WorkspaceFile` -/

namespace WorkspaceFile

/-- The slip in `writeRootFile`: it tests `f.write(data) == 0` only, so a write
that fails with `-1` is taken for a success. With the sample collaborators on a
full device, `writeRootFile` returns true and `readRootFile` then returns the
empty array. -/
theorem writeRootFile_true_after_failed_write :
    (sample.write (SampleFile.mk (some (.raw [])) true)
      (archiveWritten sample "workspace.xml" (.raw [1, 2, 3]))).1 = -1 ∧
    (writeRootFile sample "workspace.xml" (.raw [1, 2, 3]) sampleFileFull).1 = true ∧
    (∀ fuel, readRootFile sample fuel
      (writeRootFile sample "workspace.xml" (.raw [1, 2, 3]) sampleFileFull).2
        = some (SampleBytes.raw [])) := by
  refine ⟨rfl, rfl, ?_⟩
  intro fuel
  rfl

end WorkspaceFile

end MuseScore
